import Mathlib

/-!
Verification of the chat-transcript normalizer in `smart-chat-parser.js`.

The JavaScript source parses an exported chat transcript of unknown
convention: an ordered table of nine regular-expression rules, a line
classifier that tries them in declaration order, field normalizers for
user names and timestamps, and a stateful accumulator that folds
unmatched lines into the open message.  This file embeds that program
shallowly: JavaScript regular expressions become a small regex AST with
a backtracking CPS matcher (greedy/lazy quantifiers over character
classes, capture groups, case-insensitive letters written as explicit
classes, the `m` flag realised by a scan that tracks line starts), and
every string transformation is a function on `List Char` that mirrors
the corresponding `String.prototype` call.
-/

namespace ChatParser

/-! ### Character classes

`jsWs` is the set matched by JavaScript `\s` (which coincides with the
set stripped by `String.prototype.trim`).  `dotC` is what `.` matches
without the `s` flag: anything except a line terminator.  The remaining
predicates are the bracket classes appearing in the nine patterns; the
`i` flag only affects letters, so the `AM`/`PM` literals are modelled by
the explicit two-case classes `isA`, `isP`, `isMm`. -/

def jsWs (c : Char) : Bool :=
  c == ' ' || c == '\t' || c == '\n' || c == '\x0b' || c == '\x0c' || c == '\r' ||
  c == ' ' || c == ' ' || c == ' ' || c == ' ' || c == ' ' ||
  c == ' ' || c == ' ' || c == ' ' || c == ' ' || c == ' ' ||
  c == ' ' || c == ' ' || c == ' ' || c == ' ' || c == ' ' ||
  c == ' ' || c == ' ' || c == '　' || c == '﻿'

def dotC (c : Char) : Bool :=
  !(c == '\n' || c == '\r' || c == ' ' || c == ' ')

def dClass (c : Char) : Bool := c.isDigit || c == ':'

def notColon (c : Char) : Bool := c != ':'

def notComma (c : Char) : Bool := c != ','

def notLpar (c : Char) : Bool := c != '('

def notLbrk (c : Char) : Bool := c != '['

def noDigNl (c : Char) : Bool := !(c.isDigit || c == '\n')

def isA (c : Char) : Bool := c == 'A' || c == 'a'

def isP (c : Char) : Bool := c == 'P' || c == 'p'

def isMm (c : Char) : Bool := c == 'M' || c == 'm'

def isAP (c : Char) : Bool := isA c || isP c

/-! ### String helpers mirroring the JavaScript string methods -/

/-- `text.split('\n')` on character lists: every newline separates
pieces, empty pieces included, and the empty string splits to `[[]]`. -/
def splitNl : List Char → List (List Char)
  | [] => [[]]
  | c :: rest =>
    if c = '\n' then [] :: splitNl rest
    else
      match splitNl rest with
      | [] => [[c]]
      | l :: ls => (c :: l) :: ls

/-- `Array.prototype.join('\n')`. -/
def joinNl : List (List Char) → List Char
  | [] => []
  | [l] => l
  | l :: ls => l ++ '\n' :: joinNl ls

def trimLeft (l : List Char) : List Char := l.dropWhile jsWs

def trimRight : List Char → List Char
  | [] => []
  | c :: rest =>
    match trimRight rest with
    | [] => if jsWs c then [] else [c]
    | r => c :: r

/-- `String.prototype.trim`. -/
def jsTrim (l : List Char) : List Char := trimRight (trimLeft l)

/-- `name.replace(/['"]/g, '')`. -/
def removeQuotes (l : List Char) : List Char :=
  l.filter (fun c => !(c == '\'' || c == '"'))

/-- `name.replace(/\s+/g, ' ')`: each maximal whitespace run becomes a
single space. -/
def collapseWs : List Char → List Char
  | [] => []
  | [c] => if jsWs c then [' '] else [c]
  | c :: d :: rest =>
    if jsWs c then
      if jsWs d then collapseWs (d :: rest) else ' ' :: collapseWs (d :: rest)
    else c :: collapseWs (d :: rest)

/-- `name.replace(/:+$/, '')`: drop the trailing run of colons. -/
def stripTrailColons : List Char → List Char
  | [] => []
  | c :: rest =>
    match stripTrailColons rest with
    | [] => if c = ':' then [] else [c]
    | r => c :: r

/-- `cleanUsername` on character lists: remove quotes, collapse
whitespace, trim, drop trailing colons — in the source's order. -/
def cleanUsernameL (l : List Char) : List Char :=
  stripTrailColons (jsTrim (collapseWs (removeQuotes l)))

/-- One step of `time.replace(/(\d)(AM|PM)/i, '$1 $2')`: the regex has
no `g` flag, so only the leftmost digit-marker juxtaposition gets a
space inserted. -/
def insAmPm : List Char → List Char
  | d :: a :: m :: rest =>
    if d.isDigit && isAP a && isMm m then d :: ' ' :: a :: m :: rest
    else d :: insAmPm (a :: m :: rest)
  | l => l

/-- One step of `time.replace(/(am|pm)/i, m => m.toUpperCase())`: only
the leftmost meridiem marker is uppercased. -/
def upAmPm : List Char → List Char
  | a :: m :: rest =>
    if isAP a && isMm m then a.toUpper :: m.toUpper :: rest
    else a :: upAmPm (m :: rest)
  | l => l

/-- `normalizeTime` on character lists. -/
def normTimeL (l : List Char) : List Char := upAmPm (insAmPm l)

/-! ### The regex AST and the backtracking matcher

Quantifiers in the nine source patterns are always applied to a single
character class, so the AST restricts `*`, lazy `*` (and through them
`+`, `+?`) to classes; this keeps the matcher structurally recursive
while implementing exactly the JavaScript backtracking order: greedy
quantifiers try the longest extent first, lazy ones the shortest,
alternation tries the left branch first, and `?` tries to match before
matching empty. -/

inductive RE : Type
  | eps : RE
  | char : Char → RE
  | cls : (Char → Bool) → RE
  | seq : RE → RE → RE
  | alt : RE → RE → RE
  | opt : RE → RE
  | starCls : (Char → Bool) → RE
  | lazyStarCls : (Char → Bool) → RE
  | group : Nat → RE → RE

def rePlus (p : Char → Bool) : RE := .seq (.cls p) (.starCls p)

def reLazyPlus (p : Char → Bool) : RE := .seq (.cls p) (.lazyStarCls p)

/-- Capture environment: group index paired with the captured
characters; later writes shadow earlier ones. -/
abbrev Caps := List (Nat × List Char)

def setCap (i : Nat) (w : List Char) (caps : Caps) : Caps := (i, w) :: caps

def getCap (i : Nat) (caps : Caps) : List Char :=
  ((caps.find? (fun p => p.1 == i)).map Prod.snd).getD []

/-- The continuation that accepts any remaining suffix — `match` does
not require the regex to consume the whole string. -/
def topK : List Char → Caps → Option Caps := fun _ caps => some caps

/-- Greedy star over a class: consume as many `p`-characters as
possible, backtracking one at a time. -/
def starM (p : Char → Bool) (s : List Char) (k : List Char → Caps → Option Caps)
    (caps : Caps) : Option Caps :=
  match s with
  | [] => k [] caps
  | c :: rest =>
    if p c then
      match starM p rest k caps with
      | some v => some v
      | none => k s caps
    else k s caps

/-- Lazy star over a class: try the continuation first, then consume. -/
def lazyStarM (p : Char → Bool) (s : List Char) (k : List Char → Caps → Option Caps)
    (caps : Caps) : Option Caps :=
  match s with
  | [] => k [] caps
  | c :: rest =>
    match k (c :: rest) caps with
    | some v => some v
    | none => if p c then lazyStarM p rest k caps else none

/-- The CPS backtracking matcher, anchored at the current position. -/
def matchM : RE → List Char → (List Char → Caps → Option Caps) → Caps → Option Caps
  | .eps, s, k, caps => k s caps
  | .char c, s, k, caps =>
    match s with
    | [] => none
    | d :: rest => if d = c then k rest caps else none
  | .cls p, s, k, caps =>
    match s with
    | [] => none
    | d :: rest => if p d then k rest caps else none
  | .seq a b, s, k, caps => matchM a s (fun s1 c1 => matchM b s1 k c1) caps
  | .alt a b, s, k, caps =>
    match matchM a s k caps with
    | some v => some v
    | none => matchM b s k caps
  | .opt a, s, k, caps =>
    match matchM a s k caps with
    | some v => some v
    | none => k s caps
  | .starCls p, s, k, caps => starM p s k caps
  | .lazyStarCls p, s, k, caps => lazyStarM p s k caps
  | .group i a, s, k, caps =>
    matchM a s (fun s1 c1 => k s1 (setCap i (s.take (s.length - s1.length)) c1)) caps

/-- Is the scan position a valid start for a `^`-anchored pattern under
the `m` flag?  (`prev` is the character before the position.) -/
def atBol (bol : Bool) (prev : Option Char) : Bool :=
  if bol then
    match prev with
    | none => true
    | some c => c == '\n'
  else true

/-- `String.prototype.match`: try each start position left to right. -/
def scanM (bol : Bool) (r : RE) (prev : Option Char) (s : List Char) : Option Caps :=
  match (if atBol bol prev then matchM r s topK [] else none) with
  | some v => some v
  | none =>
    match s with
    | [] => none
    | c :: rest => scanM bol r (some c) rest

/-! ### The nine rule patterns, in source order -/

/-- `[\d:]+\s*(?:AM|PM)?` — shared timestamp sub-pattern. -/
def timeRE : RE :=
  .seq (rePlus dClass)
    (.seq (.starCls jsWs)
      (.opt (.alt (.seq (.cls isA) (.cls isMm)) (.seq (.cls isP) (.cls isMm)))))

/-- `\s*(.+)` — the common tail of every single-line pattern. -/
def tailT : RE := .seq (.starCls jsWs) (.group 3 (rePlus dotC))

/-- `/^(.+)\n([\d:]+\s*(?:AM|PM)?)\n(.+)/im` -/
def imessageRE : RE :=
  .seq (.group 1 (rePlus dotC))
    (.seq (.char '\n')
      (.seq (.group 2 timeRE)
        (.seq (.char '\n') (.group 3 (rePlus dotC)))))

/-- `/\[([\d:]+\s*(?:AM|PM)?)\]\s*([^:]+):\s*(.+)/i` -/
def discordRE : RE :=
  .seq (.char '[')
    (.seq (.group 1 timeRE)
      (.seq (.char ']')
        (.seq (.starCls jsWs)
          (.seq (.group 2 (rePlus notColon))
            (.seq (.char ':') tailT)))))

/-- `/([\d:]+\s*(?:AM|PM)?)\s*-\s*([^:]+):\s*(.+)/i` -/
def whatsapp1RE : RE :=
  .seq (.group 1 timeRE)
    (.seq (.starCls jsWs)
      (.seq (.char '-')
        (.seq (.starCls jsWs)
          (.seq (.group 2 (rePlus notColon))
            (.seq (.char ':') tailT)))))

/-- `/([^,]+),\s*([\d:]+\s*(?:AM|PM)?):\s*(.+)/i` -/
def whatsapp2RE : RE :=
  .seq (.group 1 (rePlus notComma))
    (.seq (.char ',')
      (.seq (.starCls jsWs)
        (.seq (.group 2 timeRE)
          (.seq (.char ':') tailT))))

/-- `/^([^\d\n]+)\s+([\d:]+\s*(?:AM|PM)?)\n(.+)/im` -/
def slackRE : RE :=
  .seq (.group 1 (rePlus noDigNl))
    (.seq (rePlus jsWs)
      (.seq (.group 2 timeRE)
        (.seq (.char '\n') (.group 3 (rePlus dotC)))))

/-- `/([^(]+)\s*\(([\d:]+\s*(?:AM|PM)?)\):\s*(.+)/i` -/
def generic1RE : RE :=
  .seq (.group 1 (rePlus notLpar))
    (.seq (.starCls jsWs)
      (.seq (.char '(')
        (.seq (.group 2 timeRE)
          (.seq (.char ')')
            (.seq (.char ':') tailT)))))

/-- `/([^\[]+)\s*\[([\d:]+\s*(?:AM|PM)?)\]\n(.+)/im` -/
def telegramRE : RE :=
  .seq (.group 1 (rePlus notLbrk))
    (.seq (.starCls jsWs)
      (.seq (.char '[')
        (.seq (.group 2 timeRE)
          (.seq (.char ']')
            (.seq (.char '\n') (.group 3 (rePlus dotC)))))))

/-- `/^([^\d\n]+?)\s*([\d:]+\s*(?:AM|PM)?)\n(.+)/im` -/
def smsRE : RE :=
  .seq (.group 1 (reLazyPlus noDigNl))
    (.seq (.starCls jsWs)
      (.seq (.group 2 timeRE)
        (.seq (.char '\n') (.group 3 (rePlus dotC)))))

/-- `/\[([\d:]+\s*(?:AM|PM)?)\]\s*([^:]+):\s*(.+)/i` — character for
character the same pattern as `discordRE`, registered under a second
name. -/
def standardRE : RE :=
  .seq (.char '[')
    (.seq (.group 1 timeRE)
      (.seq (.char ']')
        (.seq (.starCls jsWs)
          (.seq (.group 2 (rePlus notColon))
            (.seq (.char ':') tailT)))))

/-- The rule table: name, whether the pattern is `^`-anchored, pattern.
`Object.entries` iterates string keys in insertion order, so this list
order is the declaration order of `this.patterns`. -/
def patternList : List (String × Bool × RE) :=
  [("imessage", true, imessageRE),
   ("discord", false, discordRE),
   ("whatsapp1", false, whatsapp1RE),
   ("whatsapp2", false, whatsapp2RE),
   ("slack", true, slackRE),
   ("generic1", false, generic1RE),
   ("telegram", false, telegramRE),
   ("sms", true, smsRE),
   ("standard", false, standardRE)]

/-! ### Messages and the parsing pipeline -/

structure Message where
  time : String
  user : String
  content : String
  format : String
  deriving DecidableEq, Repr

/-- Which capture index holds user, time, content for each format —
the `if`/`else` chain in `parseLine`. -/
def fieldIdx (nm : String) : Nat × Nat × Nat :=
  if nm = "imessage" || nm = "slack" || nm = "telegram" || nm = "sms" then (1, 2, 3)
  else if nm = "whatsapp1" then (2, 1, 3)
  else if nm = "whatsapp2" then (1, 2, 3)
  else if nm = "discord" || nm = "standard" then (2, 1, 3)
  else (1, 2, 3)

/-- Build the message returned by `parseLine`: trim each capture, clean
the user name, normalize the time. -/
def mkMessage (nm : String) (caps : Caps) : Message :=
  let idx := fieldIdx nm
  { time := String.mk (normTimeL (jsTrim (getCap idx.2.1 caps)))
    user := String.mk (cleanUsernameL (jsTrim (getCap idx.1 caps)))
    content := String.mk (jsTrim (getCap idx.2.2 caps))
    format := nm }

/-- Try each rule in table order; first match wins. -/
def tryPatterns : List (String × Bool × RE) → List Char → Option Message
  | [], _ => none
  | (nm, bol, re) :: ps, line =>
    match scanM bol re none line with
    | some caps => some (mkMessage nm caps)
    | none => tryPatterns ps line

/-- `parseLine`. -/
def parseLine (line : String) : Option Message :=
  tryPatterns patternList line.data

/-- The trimmed, non-empty lines fed to the accumulator:
`text.split('\n').map(l => l.trim()).filter(l => l)`. -/
def chatLines (text : List Char) : List (List Char) :=
  ((splitNl text).map jsTrim).filter (fun l => l ≠ [])

/-- The message accumulator of `parse`: a matching line closes the open
message and opens a new one; a non-matching line is folded into the open
message or dropped. -/
def accum : List (List Char) → Option Message → List Message
  | [], none => []
  | [], some m => [m]
  | l :: ls, cur =>
    match tryPatterns patternList l with
    | some m =>
      match cur with
      | none => accum ls (some m)
      | some c => c :: accum ls (some m)
    | none =>
      match cur with
      | none => accum ls none
      | some c =>
        accum ls (some { c with content := String.mk (c.content.data ++ ' ' :: l) })

/-- `parse`. -/
def parse (text : String) : List Message :=
  if jsTrim text.data = [] then [] else accum (chatLines text.data) none

/-- `cleanUsername` on strings. -/
def cleanUsername (name : String) : String := String.mk (cleanUsernameL name.data)

/-- `normalizeTime` on strings. -/
def normalizeTime (time : String) : String := String.mk (normTimeL time.data)

/-- Serialization of a single message: `` `[${time}] ${user}: ${content}` ``. -/
def serializeMsg (m : Message) : List Char :=
  '[' :: (m.time.data ++ ']' :: ' ' :: (m.user.data ++ ':' :: ' ' :: m.content.data))

/-- `toStandardFormat`. -/
def toStandardFormat (messages : List Message) : String :=
  String.mk (joinNl (messages.map serializeMsg))

/-- First rule (in table order) whose pattern tests true on the sample,
else `"unknown"`. -/
def detectGo : List (String × Bool × RE) → List Char → String
  | [], _ => "unknown"
  | (nm, bol, re) :: ps, s =>
    if (scanM bol re none s).isSome then nm else detectGo ps s

/-- `detectFormat`: note the sample is the first five split lines —
untrimmed, empty lines included. -/
def detectFormat (text : String) : String :=
  detectGo patternList (joinNl ((splitNl text.data).take 5))

/-- `getFormatExample`: fixed example per tag, defaulting to the
standard example. -/
def getFormatExample (format : String) : String :=
  if format = "imessage" then "John Doe\n10:30 AM\nHey what's up"
  else if format = "discord" then "[10:30 AM] John: Hey what's up"
  else if format = "whatsapp1" then "10:30 AM - John: Hey what's up"
  else if format = "whatsapp2" then "John, 10:30 AM: Hey what's up"
  else if format = "slack" then "John 10:30 AM\nHey what's up"
  else if format = "telegram" then "John [10:30]\nHey what's up"
  else if format = "sms" then "John 10:30\nHey what's up"
  else if format = "generic1" then "John (10:30): Hey what's up"
  else "[10:30 AM] John: Hey what's up"

/-! ### Matcher metatheory

`Matches r w f` says the regex `r` can consume exactly `w`, updating the
capture environment by `f`.  The CPS matcher is sound (every success
corresponds to a derivation whose capture update produced the returned
environment) and complete (if the matcher fails, every derivation's
continuation fails). -/

inductive Matches : RE → List Char → (Caps → Caps) → Prop
  | eps : Matches .eps [] id
  | char (c : Char) : Matches (.char c) [c] id
  | cls {p : Char → Bool} {c : Char} : p c = true → Matches (.cls p) [c] id
  | seq {a b : RE} {w1 w2 : List Char} {f1 f2 : Caps → Caps} :
      Matches a w1 f1 → Matches b w2 f2 → Matches (.seq a b) (w1 ++ w2) (f2 ∘ f1)
  | altL {a b : RE} {w : List Char} {f : Caps → Caps} :
      Matches a w f → Matches (.alt a b) w f
  | altR {a b : RE} {w : List Char} {f : Caps → Caps} :
      Matches b w f → Matches (.alt a b) w f
  | optSome {a : RE} {w : List Char} {f : Caps → Caps} :
      Matches a w f → Matches (.opt a) w f
  | optNone {a : RE} : Matches (.opt a) [] id
  | star {p : Char → Bool} {w : List Char} :
      (∀ c ∈ w, p c = true) → Matches (.starCls p) w id
  | lazyStar {p : Char → Bool} {w : List Char} :
      (∀ c ∈ w, p c = true) → Matches (.lazyStarCls p) w id
  | group {i : Nat} {a : RE} {w : List Char} {f : Caps → Caps} :
      Matches a w f → Matches (.group i a) w (fun caps => setCap i w (f caps))

theorem starM_sound {p : Char → Bool} {s : List Char}
    {k : List Char → Caps → Option Caps} {caps : Caps} :
    ∀ {v}, starM p s k caps = some v →
    ∃ w s1, s = w ++ s1 ∧ (∀ c ∈ w, p c = true) ∧ k s1 caps = some v := by
  induction s with
  | nil => intro v h; exact ⟨[], [], rfl, by simp, h⟩
  | cons c rest ih =>
    intro v h
    simp only [starM] at h
    by_cases hc : p c = true
    · rw [if_pos hc] at h
      cases hrec : starM p rest k caps with
      | some v' =>
        rw [hrec] at h
        obtain ⟨w, s1, hsplit, hall, hk⟩ := ih hrec
        cases h
        exact ⟨c :: w, s1, by simp [hsplit], by
          intro x hx; rcases List.mem_cons.mp hx with h1 | h2
          · exact h1 ▸ hc
          · exact hall x h2, hk⟩
      | none =>
        rw [hrec] at h
        exact ⟨[], c :: rest, rfl, by simp, h⟩
    · rw [if_neg hc] at h
      exact ⟨[], c :: rest, rfl, by simp, h⟩

theorem lazyStarM_sound {p : Char → Bool} {s : List Char}
    {k : List Char → Caps → Option Caps} {caps v} :
    lazyStarM p s k caps = some v →
    ∃ w s1, s = w ++ s1 ∧ (∀ c ∈ w, p c = true) ∧ k s1 caps = some v := by
  induction s with
  | nil =>
    intro h
    simp only [lazyStarM] at h
    cases hk : k [] caps with
    | some v' => rw [hk] at h; cases h; exact ⟨[], [], rfl, by simp, hk⟩
    | none => rw [hk] at h; cases h
  | cons c rest ih =>
    intro h
    simp only [lazyStarM] at h
    cases hk : k (c :: rest) caps with
    | some v' =>
      rw [hk] at h; cases h; exact ⟨[], c :: rest, rfl, by simp, hk⟩
    | none =>
      rw [hk] at h
      by_cases hc : p c = true
      · rw [if_pos hc] at h
        obtain ⟨w, s1, hsplit, hall, hk2⟩ := ih h
        exact ⟨c :: w, s1, by simp [hsplit], by
          intro x hx; rcases List.mem_cons.mp hx with h1 | h2
          · exact h1 ▸ hc
          · exact hall x h2, hk2⟩
      · rw [if_neg hc] at h; cases h

theorem matchM_sound {r : RE} :
    ∀ {s : List Char} {k : List Char → Caps → Option Caps} {caps v},
    matchM r s k caps = some v →
    ∃ w s1 f, s = w ++ s1 ∧ Matches r w f ∧ k s1 (f caps) = some v := by
  induction r with
  | eps =>
    intro s k caps v h
    exact ⟨[], s, id, rfl, Matches.eps, h⟩
  | char c =>
    intro s k caps v h
    match s with
    | [] => simp [matchM] at h
    | d :: rest =>
      simp only [matchM] at h
      by_cases hd : d = c
      · rw [if_pos hd] at h
        subst hd
        exact ⟨[d], rest, id, rfl, Matches.char d, h⟩
      · rw [if_neg hd] at h; cases h
  | cls p =>
    intro s k caps v h
    match s with
    | [] => simp [matchM] at h
    | d :: rest =>
      simp only [matchM] at h
      by_cases hd : p d = true
      · rw [if_pos hd] at h
        exact ⟨[d], rest, id, rfl, Matches.cls hd, h⟩
      · rw [if_neg hd] at h; cases h
  | seq a b iha ihb =>
    intro s k caps v h
    simp only [matchM] at h
    obtain ⟨w1, s1, f1, hsplit1, hm1, hk1⟩ := iha h
    obtain ⟨w2, s2, f2, hsplit2, hm2, hk2⟩ := ihb hk1
    exact ⟨w1 ++ w2, s2, f2 ∘ f1, by simp [hsplit1, hsplit2],
      Matches.seq hm1 hm2, hk2⟩
  | alt a b iha ihb =>
    intro s k caps v h
    simp only [matchM] at h
    cases ha : matchM a s k caps with
    | some v' =>
      rw [ha] at h; cases h
      obtain ⟨w, s1, f, hsplit, hm, hk⟩ := iha ha
      exact ⟨w, s1, f, hsplit, Matches.altL hm, hk⟩
    | none =>
      rw [ha] at h
      obtain ⟨w, s1, f, hsplit, hm, hk⟩ := ihb h
      exact ⟨w, s1, f, hsplit, Matches.altR hm, hk⟩
  | opt a iha =>
    intro s k caps v h
    simp only [matchM] at h
    cases ha : matchM a s k caps with
    | some v' =>
      rw [ha] at h; cases h
      obtain ⟨w, s1, f, hsplit, hm, hk⟩ := iha ha
      exact ⟨w, s1, f, hsplit, Matches.optSome hm, hk⟩
    | none =>
      rw [ha] at h
      exact ⟨[], s, id, rfl, Matches.optNone, h⟩
  | starCls p =>
    intro s k caps v h
    obtain ⟨w, s1, hsplit, hall, hk⟩ := starM_sound h
    exact ⟨w, s1, id, hsplit, Matches.star hall, hk⟩
  | lazyStarCls p =>
    intro s k caps v h
    obtain ⟨w, s1, hsplit, hall, hk⟩ := lazyStarM_sound h
    exact ⟨w, s1, id, hsplit, Matches.lazyStar hall, hk⟩
  | group i a iha =>
    intro s k caps v h
    simp only [matchM] at h
    obtain ⟨w, s1, f, hsplit, hm, hk⟩ := iha h
    refine ⟨w, s1, fun caps => setCap i w (f caps), hsplit, Matches.group hm, ?_⟩
    have : s.take (s.length - s1.length) = w := by
      subst hsplit
      simp [List.take_left]
    rwa [this] at hk

theorem starM_none {p : Char → Bool} {w : List Char} (hall : ∀ c ∈ w, p c = true) :
    ∀ {s1 : List Char} {k : List Char → Caps → Option Caps} {caps},
    starM p (w ++ s1) k caps = none → k s1 caps = none := by
  induction w with
  | nil =>
    intro s1 k caps h
    match s1 with
    | [] => exact h
    | c :: rest =>
      simp only [List.nil_append, starM] at h
      by_cases hc : p c = true
      · rw [if_pos hc] at h
        cases hrec : starM p rest k caps with
        | some v => rw [hrec] at h; cases h
        | none => rw [hrec] at h; exact h
      · rw [if_neg hc] at h; exact h
  | cons c w' ih =>
    intro s1 k caps h
    have hc : p c = true := hall c (List.mem_cons_self c w')
    simp only [List.cons_append, starM, if_pos hc, List.append_eq] at h
    cases hrec : starM p (w' ++ s1) k caps with
    | some v => rw [hrec] at h; cases h
    | none => exact ih (fun x hx => hall x (List.mem_cons_of_mem c hx)) hrec

theorem lazyStarM_none {p : Char → Bool} {w : List Char} (hall : ∀ c ∈ w, p c = true) :
    ∀ {s1 : List Char} {k : List Char → Caps → Option Caps} {caps},
    lazyStarM p (w ++ s1) k caps = none → k s1 caps = none := by
  induction w with
  | nil =>
    intro s1 k caps h
    rw [List.nil_append] at h
    match s1 with
    | [] =>
      simp only [lazyStarM] at h
      exact h
    | c :: rest =>
      simp only [lazyStarM] at h
      cases hk : k (c :: rest) caps with
      | some v => rw [hk] at h; simp at h
      | none => rfl
  | cons c w' ih =>
    intro s1 k caps h
    have hc : p c = true := hall c (List.mem_cons_self c w')
    rw [List.cons_append] at h
    simp only [lazyStarM] at h
    cases hk : k (c :: (w' ++ s1)) caps with
    | some v => rw [hk] at h; simp at h
    | none =>
      rw [hk] at h
      rw [if_pos hc] at h
      exact ih (fun x hx => hall x (List.mem_cons_of_mem c hx)) h

theorem matchM_none {r : RE} {w : List Char} {f : Caps → Caps} (hm : Matches r w f) :
    ∀ {s1 : List Char} {k : List Char → Caps → Option Caps} {caps},
    matchM r (w ++ s1) k caps = none → k s1 (f caps) = none := by
  induction hm with
  | eps => intro s1 k caps h; exact h
  | char c =>
    intro s1 k caps h
    simpa [matchM] using h
  | cls hp =>
    intro s1 k caps h
    simp only [List.cons_append, List.nil_append, matchM] at h
    rwa [if_pos hp] at h
  | seq hm1 hm2 ih1 ih2 =>
    intro s1 k caps h
    simp only [matchM, List.append_assoc] at h
    exact ih2 (ih1 h)
  | altL hm ih =>
    intro s1 k caps h
    simp only [matchM] at h
    cases ha : matchM _ (_ ++ s1) k caps with
    | some v => rw [ha] at h; cases h
    | none => exact ih ha
  | altR hm ih =>
    intro s1 k caps h
    simp only [matchM] at h
    cases ha : matchM _ (_ ++ s1) k caps with
    | some v => rw [ha] at h; cases h
    | none => rw [ha] at h; exact ih h
  | optSome hm ih =>
    intro s1 k caps h
    simp only [matchM] at h
    cases ha : matchM _ (_ ++ s1) k caps with
    | some v => rw [ha] at h; cases h
    | none => exact ih ha
  | optNone =>
    intro s1 k caps h
    simp only [List.nil_append, matchM] at h
    cases ha : matchM _ s1 k caps with
    | some v => rw [ha] at h; cases h
    | none => rw [ha] at h; exact h
  | star hall =>
    intro s1 k caps h
    exact starM_none hall h
  | lazyStar hall =>
    intro s1 k caps h
    exact lazyStarM_none hall h
  | group hm ih =>
    intro s1 k caps h
    simp only [matchM] at h
    have h2 := ih h
    simpa [List.take_left] using h2

theorem scanM_sound {bol : Bool} {r : RE} :
    ∀ {s : List Char} {prev : Option Char} {v},
    scanM bol r prev s = some v →
    ∃ s', s' <:+ s ∧ matchM r s' topK [] = some v := by
  intro s
  induction s with
  | nil =>
    intro prev v h
    simp only [scanM] at h
    cases hb : (if atBol bol prev then matchM r [] topK [] else none) with
    | some v' =>
      rw [hb] at h; cases h
      by_cases hab : atBol bol prev = true
      · rw [if_pos hab] at hb
        exact ⟨[], List.suffix_refl [], hb⟩
      · rw [if_neg hab] at hb; cases hb
    | none => rw [hb] at h; cases h
  | cons c rest ih =>
    intro prev v h
    simp only [scanM] at h
    cases hb : (if atBol bol prev then matchM r (c :: rest) topK [] else none) with
    | some v' =>
      rw [hb] at h; cases h
      by_cases hab : atBol bol prev = true
      · rw [if_pos hab] at hb
        exact ⟨c :: rest, List.suffix_refl _, hb⟩
      · rw [if_neg hab] at hb; cases hb
    | none =>
      rw [hb] at h
      obtain ⟨s', hsuf, hm⟩ := ih h
      exact ⟨s', hsuf.trans (List.suffix_cons c rest), hm⟩

theorem scanM_of_head {bol : Bool} {r : RE} {prev : Option Char} {s : List Char} {v}
    (hab : atBol bol prev = true) (h : matchM r s topK [] = some v) :
    scanM bol r prev s = some v := by
  match s with
  | [] => simp only [scanM, if_pos hab, h]
  | c :: rest => simp only [scanM, if_pos hab, h]

/-- Characters that every successful match of `r` must consume. -/
def reNeeds (c : Char) : RE → Bool
  | .char d => d == c
  | .seq a b => reNeeds c a || reNeeds c b
  | .alt a b => reNeeds c a && reNeeds c b
  | .group _ a => reNeeds c a
  | _ => false

theorem Matches_needs {c : Char} {r : RE} {w : List Char} {f : Caps → Caps}
    (hr : reNeeds c r = true) (hm : Matches r w f) : c ∈ w := by
  induction hm with
  | eps => simp [reNeeds] at hr
  | char d =>
    simp only [reNeeds, beq_iff_eq] at hr
    simp [hr]
  | cls _ => simp [reNeeds] at hr
  | seq hm1 hm2 ih1 ih2 =>
    simp only [reNeeds, Bool.or_eq_true] at hr
    rcases hr with hr | hr
    · exact List.mem_append_left _ (ih1 hr)
    · exact List.mem_append_right _ (ih2 hr)
  | altL hm ih =>
    simp only [reNeeds, Bool.and_eq_true] at hr
    exact ih hr.1
  | altR hm ih =>
    simp only [reNeeds, Bool.and_eq_true] at hr
    exact ih hr.2
  | optSome hm ih => simp [reNeeds] at hr
  | optNone => simp [reNeeds] at hr
  | star _ => simp [reNeeds] at hr
  | lazyStar _ => simp [reNeeds] at hr
  | group hm ih => exact ih hr

theorem scanM_none_of_needs {c : Char} {bol : Bool} {r : RE} {prev : Option Char}
    {s : List Char} (hr : reNeeds c r = true) (hc : c ∉ s) :
    scanM bol r prev s = none := by
  cases h : scanM bol r prev s with
  | none => rfl
  | some v =>
    exfalso
    obtain ⟨s', hsuf, hm⟩ := scanM_sound h
    obtain ⟨w, s1, f, hsplit, hM, _⟩ := matchM_sound hm
    exact hc (hsuf.subset (hsplit ▸ List.mem_append_left s1 (Matches_needs hr hM)))

/-- Regexes without capture groups update the environment trivially. -/
def hasGroup : RE → Bool
  | .seq a b => hasGroup a || hasGroup b
  | .alt a b => hasGroup a || hasGroup b
  | .opt a => hasGroup a
  | .group _ _ => true
  | _ => false

theorem Matches_id_of_groupfree {r : RE} {w : List Char} {f : Caps → Caps}
    (hg : hasGroup r = false) (hm : Matches r w f) : ∀ caps, f caps = caps := by
  induction hm with
  | eps => intro caps; rfl
  | char _ => intro caps; rfl
  | cls _ => intro caps; rfl
  | seq hm1 hm2 ih1 ih2 =>
    intro caps
    simp only [hasGroup, Bool.or_eq_false_iff] at hg
    simp [Function.comp, ih1 hg.1, ih2 hg.2]
  | altL hm ih =>
    intro caps
    simp only [hasGroup, Bool.or_eq_false_iff] at hg
    exact ih hg.1 caps
  | altR hm ih =>
    intro caps
    simp only [hasGroup, Bool.or_eq_false_iff] at hg
    exact ih hg.2 caps
  | optSome hm ih => exact ih hg
  | optNone => intro caps; rfl
  | star _ => intro caps; rfl
  | lazyStar _ => intro caps; rfl
  | group hm ih => simp [hasGroup] at hg

/-! ### Structure of the line pipeline -/

theorem splitNl_no_nl {t : List Char} : ∀ p ∈ splitNl t, ('\n' : Char) ∉ p := by
  induction t with
  | nil =>
    intro p hp
    simp only [splitNl, List.mem_singleton] at hp
    simp [hp]
  | cons c rest ih =>
    intro p hp
    simp only [splitNl] at hp
    by_cases hc : c = '\n'
    · rw [if_pos hc] at hp
      rcases List.mem_cons.mp hp with h | h
      · simp [h]
      · exact ih p h
    · rw [if_neg hc] at hp
      cases hsp : splitNl rest with
      | nil =>
        rw [hsp] at hp
        simp only [List.mem_singleton] at hp
        subst hp
        intro hmem
        simp only [List.mem_singleton] at hmem
        exact hc hmem.symm
      | cons l ls =>
        rw [hsp] at hp
        rcases List.mem_cons.mp hp with h | h
        · subst h
          intro hmem
          rcases List.mem_cons.mp hmem with h2 | h2
          · exact hc h2.symm
          · exact ih l (hsp ▸ List.mem_cons_self l ls) h2
        · exact ih p (hsp ▸ List.mem_cons_of_mem l h)

theorem trimRight_subset {l : List Char} : trimRight l ⊆ l := by
  induction l with
  | nil => simp [trimRight]
  | cons c rest ih =>
    simp only [trimRight]
    cases h : trimRight rest with
    | nil =>
      by_cases hc : jsWs c = true
      · simp [hc]
      · simp only [hc]
        intro x hx
        simp only [Bool.false_eq_true, if_false, List.mem_singleton] at hx
        simp [hx]
    | cons d ds =>
      intro x hx
      rcases List.mem_cons.mp hx with h2 | h2
      · simp [h2]
      · exact List.mem_cons_of_mem c (ih (by rw [h]; exact h2))

theorem jsTrim_subset {l : List Char} : jsTrim l ⊆ l :=
  fun _ hx => (List.dropWhile_sublist jsWs).subset (trimRight_subset hx)

theorem chatLines_mem {t : List Char} {l : List Char} (hl : l ∈ chatLines t) :
    ('\n' : Char) ∉ l ∧ l ≠ [] ∧ ∃ p ∈ splitNl t, l = jsTrim p := by
  simp only [chatLines, List.mem_filter, List.mem_map, decide_eq_true_eq] at hl
  obtain ⟨⟨p, hp, rfl⟩, hne⟩ := hl
  exact ⟨fun hmem => splitNl_no_nl p hp (jsTrim_subset hmem), hne, p, hp, rfl⟩

/-- Every message that `accum` emits either is the incoming open message
(with possibly extended content) or originates from a successful
`tryPatterns` on one of the lines; either way its `format` comes from
such an origin. -/
theorem accum_mem_format : ∀ {lines : List (List Char)} {cur : Option Message}
    {m : Message}, m ∈ accum lines cur →
    (∃ c, cur = some c ∧ m.format = c.format) ∨
    (∃ l ∈ lines, ∃ m₀, tryPatterns patternList l = some m₀ ∧ m.format = m₀.format) := by
  intro lines
  induction lines with
  | nil =>
    intro cur m hm
    match cur with
    | none => simp [accum] at hm
    | some c =>
      simp only [accum, List.mem_singleton] at hm
      exact Or.inl ⟨c, rfl, by rw [hm]⟩
  | cons l ls ih =>
    intro cur m hm
    simp only [accum] at hm
    cases hp : tryPatterns patternList l with
    | some m₀ =>
      rw [hp] at hm
      match cur with
      | none =>
        rcases ih hm with ⟨c, hc, hf⟩ | ⟨l', hl', m₁, hm₁, hf⟩
        · cases hc
          exact Or.inr ⟨l, List.mem_cons_self l ls, m₀, hp, hf⟩
        · exact Or.inr ⟨l', List.mem_cons_of_mem l hl', m₁, hm₁, hf⟩
      | some c =>
        rcases List.mem_cons.mp hm with h | h
        · exact Or.inl ⟨c, rfl, by rw [h]⟩
        · rcases ih h with ⟨c', hc', hf⟩ | ⟨l', hl', m₁, hm₁, hf⟩
          · cases hc'
            exact Or.inr ⟨l, List.mem_cons_self l ls, m₀, hp, hf⟩
          · exact Or.inr ⟨l', List.mem_cons_of_mem l hl', m₁, hm₁, hf⟩
    | none =>
      rw [hp] at hm
      match cur with
      | none =>
        rcases ih hm with ⟨c, hc, hf⟩ | ⟨l', hl', m₁, hm₁, hf⟩
        · cases hc
        · exact Or.inr ⟨l', List.mem_cons_of_mem l hl', m₁, hm₁, hf⟩
      | some c =>
        rcases ih hm with ⟨c', hc', hf⟩ | ⟨l', hl', m₁, hm₁, hf⟩
        · cases hc'
          exact Or.inl ⟨c, rfl, hf⟩
        · exact Or.inr ⟨l', List.mem_cons_of_mem l hl', m₁, hm₁, hf⟩

/-- Every parsed message's format originates from a successful match on
a newline-free line. -/
theorem parse_format_origin {text : String} {m : Message} (hm : m ∈ parse text) :
    ∃ l, ('\n' : Char) ∉ l ∧ ∃ m₀, tryPatterns patternList l = some m₀ ∧
      m.format = m₀.format := by
  unfold parse at hm
  by_cases ht : jsTrim text.data = []
  · rw [if_pos ht] at hm; cases hm
  · rw [if_neg ht] at hm
    rcases accum_mem_format hm with ⟨c, hc, _⟩ | ⟨l, hl, m₀, hm₀, hf⟩
    · cases hc
    · exact ⟨l, (chatLines_mem hl).1, m₀, hm₀, hf⟩

theorem tryPatterns_nl_format {l : List Char} {m₀ : Message}
    (hnl : ('\n' : Char) ∉ l) (hp : tryPatterns patternList l = some m₀) :
    m₀.format = "discord" ∨ m₀.format = "whatsapp1" ∨ m₀.format = "whatsapp2" ∨
    m₀.format = "generic1" ∨ m₀.format = "standard" := by
  have h1 : scanM true imessageRE none l = none := scanM_none_of_needs (by decide) hnl
  have h5 : scanM true slackRE none l = none := scanM_none_of_needs (by decide) hnl
  have h7 : scanM false telegramRE none l = none := scanM_none_of_needs (by decide) hnl
  have h8 : scanM true smsRE none l = none := scanM_none_of_needs (by decide) hnl
  simp only [patternList, tryPatterns, h1, h5, h7, h8] at hp
  cases h2 : scanM false discordRE none l with
  | some caps => rw [h2] at hp; cases hp; exact Or.inl rfl
  | none =>
  rw [h2] at hp
  cases h3 : scanM false whatsapp1RE none l with
  | some caps => rw [h3] at hp; cases hp; exact Or.inr (Or.inl rfl)
  | none =>
  rw [h3] at hp
  cases h4 : scanM false whatsapp2RE none l with
  | some caps => rw [h4] at hp; cases hp; exact Or.inr (Or.inr (Or.inl rfl))
  | none =>
  rw [h4] at hp
  cases h6 : scanM false generic1RE none l with
  | some caps => rw [h6] at hp; cases hp; exact Or.inr (Or.inr (Or.inr (Or.inl rfl)))
  | none =>
  rw [h6] at hp
  cases h9 : scanM false standardRE none l with
  | some caps => rw [h9] at hp; cases hp; exact Or.inr (Or.inr (Or.inr (Or.inr rfl)))
  | none => rw [h9] at hp; cases hp

/-- First-match-wins, stated through `List.find?`. -/
theorem tryPatterns_map_format : ∀ (ps : List (String × Bool × RE)) (l : List Char),
    (tryPatterns ps l).map Message.format =
      (ps.find? fun pr => (scanM pr.2.1 pr.2.2 none l).isSome).map Prod.fst := by
  intro ps
  induction ps with
  | nil => intro l; rfl
  | cons pr ps ih =>
    intro l
    obtain ⟨nm, bol, re⟩ := pr
    simp only [tryPatterns]
    cases h : scanM bol re none l with
    | some caps =>
      rw [List.find?_cons_of_pos _ (by simp [h])]
      simp [mkMessage]
    | none =>
      rw [List.find?_cons_of_neg _ (by simp [h])]
      exact ih l

theorem tryPatterns_ne_standard {l : List Char} {m : Message}
    (hp : tryPatterns patternList l = some m) : m.format ≠ "standard" := by
  simp only [patternList, tryPatterns] at hp
  cases h1 : scanM true imessageRE none l with
  | some caps => rw [h1] at hp; cases hp; simp [mkMessage]
  | none =>
  rw [h1] at hp
  cases h2 : scanM false discordRE none l with
  | some caps => rw [h2] at hp; cases hp; simp [mkMessage]
  | none =>
  rw [h2] at hp
  cases h3 : scanM false whatsapp1RE none l with
  | some caps => rw [h3] at hp; cases hp; simp [mkMessage]
  | none =>
  rw [h3] at hp
  cases h4 : scanM false whatsapp2RE none l with
  | some caps => rw [h4] at hp; cases hp; simp [mkMessage]
  | none =>
  rw [h4] at hp
  cases h5 : scanM true slackRE none l with
  | some caps => rw [h5] at hp; cases hp; simp [mkMessage]
  | none =>
  rw [h5] at hp
  cases h6 : scanM false generic1RE none l with
  | some caps => rw [h6] at hp; cases hp; simp [mkMessage]
  | none =>
  rw [h6] at hp
  cases h7 : scanM false telegramRE none l with
  | some caps => rw [h7] at hp; cases hp; simp [mkMessage]
  | none =>
  rw [h7] at hp
  cases h8 : scanM true smsRE none l with
  | some caps => rw [h8] at hp; cases hp; simp [mkMessage]
  | none =>
  rw [h8] at hp
  cases h9 : scanM false standardRE none l with
  | some caps =>
    exfalso
    have heq : standardRE = discordRE := rfl
    rw [heq, h2] at h9
    cases h9
  | none => rw [h9] at hp; cases hp

theorem detectGo_eq_find? : ∀ (ps : List (String × Bool × RE)) (s : List Char),
    detectGo ps s =
      match ps.find? (fun pr => (scanM pr.2.1 pr.2.2 none s).isSome) with
      | some pr => pr.1
      | none => "unknown" := by
  intro ps
  induction ps with
  | nil => intro s; rfl
  | cons pr ps ih =>
    intro s
    obtain ⟨nm, bol, re⟩ := pr
    simp only [detectGo]
    by_cases h : (scanM bol re none s).isSome = true
    · have hf : List.find? (fun pr : String × Bool × RE =>
          (scanM pr.2.1 pr.2.2 none s).isSome) ((nm, bol, re) :: ps) =
          some (nm, bol, re) :=
        List.find?_cons_of_pos _ h
      rw [if_pos h, hf]
    · have hf : List.find? (fun pr : String × Bool × RE =>
          (scanM pr.2.1 pr.2.2 none s).isSome) ((nm, bol, re) :: ps) =
          List.find? (fun pr : String × Bool × RE =>
          (scanM pr.2.1 pr.2.2 none s).isSome) ps :=
        List.find?_cons_of_neg _ (by simpa using h)
      rw [if_neg h, hf]
      exact ih s

/-! ### Spec-side first-occurrence formulations for `normalizeTime` -/

/-- Index of the first digit–meridiem juxtaposition (the leftmost match
of `/(\d)(AM|PM)/i`). -/
def insIdx : List Char → Option Nat
  | d :: a :: m :: rest =>
    if d.isDigit && isAP a && isMm m then some 0
    else (insIdx (a :: m :: rest)).map (· + 1)
  | _ => none

/-- Splice a single space right after position `i` of the first
digit–meridiem juxtaposition; identity if there is none. -/
def specInsertFirst (l : List Char) : List Char :=
  match insIdx l with
  | none => l
  | some i => l.take (i + 1) ++ ' ' :: l.drop (i + 1)

/-- Index of the first meridiem marker (the leftmost match of
`/(am|pm)/i`). -/
def upIdx : List Char → Option Nat
  | a :: m :: rest =>
    if isAP a && isMm m then some 0
    else (upIdx (m :: rest)).map (· + 1)
  | _ => none

/-- Uppercase the two characters of the first meridiem marker, leaving
everything else unchanged; identity if there is none. -/
def specUppercaseFirst (l : List Char) : List Char :=
  match upIdx l with
  | none => l
  | some i => l.take i ++ ((l.drop i).take 2).map Char.toUpper ++ l.drop (i + 2)

theorem insAmPm_eq_spec : ∀ l : List Char, insAmPm l = specInsertFirst l
  | [] => by simp [insAmPm, specInsertFirst, insIdx]
  | [x] => by simp [insAmPm, specInsertFirst, insIdx]
  | [x, y] => by simp [insAmPm, specInsertFirst, insIdx]
  | d :: a :: m :: rest => by
    have ih := insAmPm_eq_spec (a :: m :: rest)
    by_cases ht : (d.isDigit && isAP a && isMm m) = true
    · simp [insAmPm, specInsertFirst, insIdx, ht]
    · have h1 : insAmPm (d :: a :: m :: rest) = d :: insAmPm (a :: m :: rest) := by
        simp [insAmPm, ht]
      have h2 : insIdx (d :: a :: m :: rest) = (insIdx (a :: m :: rest)).map (· + 1) := by
        simp [insIdx, ht]
      rw [h1, ih]
      cases hj : insIdx (a :: m :: rest) with
      | none => simp [specInsertFirst, h2, hj]
      | some j =>
        simp only [specInsertFirst, h2, hj, Option.map_some']
        rw [List.take_succ_cons, List.drop_succ_cons]
        simp

theorem upAmPm_eq_spec : ∀ l : List Char, upAmPm l = specUppercaseFirst l
  | [] => by simp [upAmPm, specUppercaseFirst, upIdx]
  | [x] => by simp [upAmPm, specUppercaseFirst, upIdx]
  | a :: m :: rest => by
    have ih := upAmPm_eq_spec (m :: rest)
    by_cases ht : (isAP a && isMm m) = true
    · simp [upAmPm, specUppercaseFirst, upIdx, ht]
    · have h1 : upAmPm (a :: m :: rest) = a :: upAmPm (m :: rest) := by
        simp [upAmPm, ht]
      have h2 : upIdx (a :: m :: rest) = (upIdx (m :: rest)).map (· + 1) := by
        simp [upIdx, ht]
      rw [h1, ih]
      cases hj : upIdx (m :: rest) with
      | none => simp [specUppercaseFirst, h2, hj]
      | some j =>
        simp only [specUppercaseFirst, h2, hj, Option.map_some']
        rw [List.take_succ_cons, List.drop_succ_cons,
          show j + 1 + 2 = (j + 2) + 1 by omega, List.drop_succ_cons]
        simp

/-! ### Claim theorems -/

/-- C1, counterexample: the claim asserts that for every registered tag
`parse(getFormatExample(tag))` yields at least one message whose format
is that tag; for `imessage` the parse is empty, because the example is
split into single lines and the multi-line `imessage` pattern cannot
match any of them. -/
theorem c1_counterexample :
    ¬ ∃ m ∈ parse (getFormatExample "imessage"), m.format = "imessage" := by
  decide

/-- C1, amended: the example round trip holds exactly for the four
single-line tags `discord`, `whatsapp1`, `whatsapp2`, `generic1`, with
the intended time/user/content fields; the multi-line tags `imessage`,
`slack`, `telegram`, `sms` parse to the empty list; the `standard`
example parses with the intended fields but format `discord`; and the
two-line bracketed input yields exactly the two stated messages. -/
theorem c1_amended :
    parse (getFormatExample "discord") =
      [⟨"10:30 AM", "John", "Hey what's up", "discord"⟩] ∧
    parse (getFormatExample "whatsapp1") =
      [⟨"10:30 AM", "John", "Hey what's up", "whatsapp1"⟩] ∧
    parse (getFormatExample "whatsapp2") =
      [⟨"10:30 AM", "John", "Hey what's up", "whatsapp2"⟩] ∧
    parse (getFormatExample "generic1") =
      [⟨"10:30", "John", "Hey what's up", "generic1"⟩] ∧
    parse (getFormatExample "standard") =
      [⟨"10:30 AM", "John", "Hey what's up", "discord"⟩] ∧
    parse (getFormatExample "imessage") = [] ∧
    parse (getFormatExample "slack") = [] ∧
    parse (getFormatExample "telegram") = [] ∧
    parse (getFormatExample "sms") = [] ∧
    parse "[10:30 AM] John: Hey what's up\n[10:31 AM] Jane: Not much, you?" =
      [⟨"10:30 AM", "John", "Hey what's up", "discord"⟩,
       ⟨"10:31 AM", "Jane", "Not much, you?", "discord"⟩] := by
  exact ⟨by decide, by decide, by decide, by decide, by decide, by decide,
    by decide, by decide, by decide, by decide⟩

/-- C2: no parsed message ever carries the format tag of one of the
four multi-line header rules — `parse` pre-splits on newlines and those
patterns require a literal newline to match. -/
theorem c2_no_multiline_format (text : String) (m : Message) (hm : m ∈ parse text) :
    m.format ≠ "imessage" ∧ m.format ≠ "slack" ∧
    m.format ≠ "telegram" ∧ m.format ≠ "sms" := by
  obtain ⟨l, hnl, m₀, hp, hf⟩ := parse_format_origin hm
  rcases tryPatterns_nl_format hnl hp with h | h | h | h | h <;>
    · rw [hf, h]
      exact ⟨by decide, by decide, by decide, by decide⟩

theorem c2_witness :
    ∃ m ∈ parse "[10:30 AM] John: Hey",
      m.format ≠ "imessage" ∧ m.format ≠ "slack" ∧
      m.format ≠ "telegram" ∧ m.format ≠ "sms" := by
  refine ⟨⟨"10:30 AM", "John", "Hey", "discord"⟩, by decide, ?_⟩
  exact c2_no_multiline_format "[10:30 AM] John: Hey" _ (by decide)

/-- C4: `parseLine` reports the first rule in table order whose pattern
matches (stated via `List.find?`), and it never reports `standard`,
because the `discord` pattern is identical and tried earlier. -/
theorem c4_first_match_wins (line : String) :
    (parseLine line).map Message.format =
      (patternList.find? fun pr =>
        (scanM pr.2.1 pr.2.2 none line.data).isSome).map Prod.fst ∧
    ∀ m, parseLine line = some m → m.format ≠ "standard" := by
  constructor
  · exact tryPatterns_map_format patternList line.data
  · intro m hm
    exact tryPatterns_ne_standard hm

theorem c4_witness :
    (parseLine "[10:30 AM] John: Hey").map Message.format = some "discord" ∧
    ∃ m, parseLine "[10:30 AM] John: Hey" = some m ∧ m.format ≠ "standard" := by
  constructor
  · rw [(c4_first_match_wins "[10:30 AM] John: Hey").1]; decide
  · exact ⟨⟨"10:30 AM", "John", "Hey", "discord"⟩, by decide,
      (c4_first_match_wins "[10:30 AM] John: Hey").2 _ (by decide)⟩

/-- C5, counterexample: the claim says the sample is the first five
NON-EMPTY lines; the code takes the first five raw lines, so a
transcript opening with five blank lines detects as `"unknown"` even
though the same content without them detects as `"discord"`. -/
theorem c5_counterexample :
    detectFormat "\n\n\n\n\n[10:30 AM] John: Hey" = "unknown" ∧
    detectFormat "[10:30 AM] John: Hey" = "discord" := by
  exact ⟨by decide, by decide⟩

/-- C5, amended: `detectFormat` takes the first five split lines
(untrimmed, empty lines included), joins them back with line breaks,
and returns the name of the first rule in table order whose pattern
matches anywhere in that sample, else `"unknown"`. -/
theorem c5_amended (text : String) :
    detectFormat text =
      match patternList.find? (fun pr =>
        (scanM pr.2.1 pr.2.2 none (joinNl ((splitNl text.data).take 5))).isSome) with
      | some pr => pr.1
      | none => "unknown" := by
  unfold detectFormat
  exact detectGo_eq_find? patternList _

/-- C6, counterexample: the claim says a space is inserted at every
digit–meridiem juxtaposition and every meridiem marker is uppercased;
the replacements carry no `g` flag, so only the first occurrence of each
is rewritten: the second marker of `"1am2pm"` stays lowercase and gets
no space. -/
theorem c6_counterexample :
    normalizeTime "1am2pm" = "1 AM2pm" ∧ ("1 AM2pm" : String) ≠ "1 AM2 PM" := by
  exact ⟨by decide, by decide⟩

/-- C6, amended: `normalizeTime` inserts a single space at the FIRST
digit–meridiem juxtaposition (if any) and then uppercases the FIRST
meridiem marker found (if any), leaving all other characters
unchanged — stated against the index-and-splice formulations
`specInsertFirst` and `specUppercaseFirst`. -/
theorem c6_amended (time : String) :
    normalizeTime time = String.mk (specUppercaseFirst (specInsertFirst time.data)) := by
  unfold normalizeTime normTimeL
  rw [insAmPm_eq_spec, upAmPm_eq_spec]

/-- C7: the concrete continuation example, and the general folding law:
a line matching no rule while a message is open is appended to the open
message's content prefixed by a single space. -/
theorem c7_continuation_folding :
    parse "[10:30 AM] John: Hello\nstill talking" =
      [⟨"10:30 AM", "John", "Hello still talking", "discord"⟩] ∧
    ∀ (l : List Char) (ls : List (List Char)) (c : Message),
      tryPatterns patternList l = none →
      accum (l :: ls) (some c) =
        accum ls (some { c with content := String.mk (c.content.data ++ ' ' :: l) }) := by
  constructor
  · decide
  · intro l ls c h
    simp only [accum, h]

theorem c7_witness :
    accum ["still talking".data] (some ⟨"10:30 AM", "John", "Hello", "discord"⟩) =
      [⟨"10:30 AM", "John", "Hello still talking", "discord"⟩] := by
  rw [c7_continuation_folding.2 _ _ _ (by decide)]
  decide

/-- C8: `parse` is total by construction; empty and whitespace-only
inputs, and transcripts none of whose lines match any rule, all produce
the empty sequence. -/
theorem c8_total_empty :
    parse "" = [] ∧ parse "   " = [] ∧
    ∀ text : String,
      (∀ l ∈ chatLines text.data, tryPatterns patternList l = none) →
      parse text = [] := by
  refine ⟨by decide, by decide, ?_⟩
  intro text hall
  unfold parse
  by_cases ht : jsTrim text.data = []
  · rw [if_pos ht]
  · rw [if_neg ht]
    have key : ∀ lines : List (List Char),
        (∀ l ∈ lines, tryPatterns patternList l = none) → accum lines none = [] := by
      intro lines
      induction lines with
      | nil => intro _; rfl
      | cons l ls ih =>
        intro h
        simp only [accum, h l (List.mem_cons_self l ls)]
        exact ih fun x hx => h x (List.mem_cons_of_mem l hx)
    exact key _ hall

theorem c8_witness : parse "hello\nworld" = [] :=
  c8_total_empty.2.2 "hello\nworld" (by decide)

/-- C9: the normalization examples from the spec. -/
theorem c9_normalization_examples :
    normalizeTime "10:30am" = "10:30 AM" ∧
    normalizeTime "10:30 AM" = "10:30 AM" ∧
    cleanUsername "\"John\"  Doe: " = "John Doe" := by
  exact ⟨by decide, by decide, by decide⟩

/-- C10: `cleanUsername` strips trailing colons only after its final
trim, so a raw capture ending in space-then-colon cleans to a user name
with a trailing space: `parse "a :, 10:30: hi"` (whatsapp2 rule) yields
a message whose user is `"a "`. -/
theorem c10_trailing_space_user :
    ∃ text : String, ∃ m ∈ parse text,
      m.user = "a " ∧ m.user.data.getLast? = some ' ' ∧ jsWs ' ' = true := by
  exact ⟨"a :, 10:30: hi", ⟨"10:30", "a ", "hi", "whatsapp2"⟩, by decide,
    by decide, by decide, by decide⟩

/-! ### Character facts -/

theorem ws_cases {c : Char} (h : jsWs c = true) :
    c = ' ' ∨ c = '\t' ∨ c = '\n' ∨ c = '\x0b' ∨ c = '\x0c' ∨ c = '\r' ∨
    c = ' ' ∨ c = ' ' ∨ c = ' ' ∨ c = ' ' ∨ c = ' ' ∨
    c = ' ' ∨ c = ' ' ∨ c = ' ' ∨ c = ' ' ∨ c = ' ' ∨
    c = ' ' ∨ c = ' ' ∨ c = ' ' ∨ c = ' ' ∨ c = ' ' ∨
    c = ' ' ∨ c = ' ' ∨ c = '　' ∨ c = '﻿' := by
  simpa [jsWs, beq_iff_eq, or_assoc] using h

theorem ws_facts {c : Char} (h : jsWs c = true) :
    dClass c = false ∧ isAP c = false ∧ isMm c = false ∧
    c.isDigit = false ∧ c ≠ ']' ∧ c ≠ '[' ∧ c ≠ ':' ∧ c ≠ '(' ∧ c ≠ ')' := by
  rcases ws_cases h with rfl|rfl|rfl|rfl|rfl|rfl|rfl|rfl|rfl|rfl|rfl|rfl|rfl|
    rfl|rfl|rfl|rfl|rfl|rfl|rfl|rfl|rfl|rfl|rfl|rfl <;> exact (by decide)

theorem not_ws_dot {c : Char} (h : jsWs c = false) : dotC c = true := by
  have h1 : c ≠ '\n' := by rintro rfl; exact absurd h (by decide)
  have h2 : c ≠ '\r' := by rintro rfl; exact absurd h (by decide)
  have h3 : c ≠ ' ' := by rintro rfl; exact absurd h (by decide)
  have h4 : c ≠ ' ' := by rintro rfl; exact absurd h (by decide)
  simp [dotC, h1, h2, h3, h4]

theorem dClass_cases {c : Char} (h : dClass c = true) :
    c.isDigit = true ∨ c = ':' := by
  simpa [dClass, beq_iff_eq] using h

theorem isDigit_not_ws {c : Char} (hd : c.isDigit = true) : jsWs c = false := by
  cases hw : jsWs c with
  | false => rfl
  | true =>
    exfalso
    rcases ws_cases hw with rfl|rfl|rfl|rfl|rfl|rfl|rfl|rfl|rfl|rfl|rfl|rfl|rfl|
      rfl|rfl|rfl|rfl|rfl|rfl|rfl|rfl|rfl|rfl|rfl|rfl <;> exact absurd hd (by decide)

theorem isAP_cases {c : Char} (h : isAP c = true) :
    c = 'A' ∨ c = 'a' ∨ c = 'P' ∨ c = 'p' := by
  simpa [isAP, isA, isP, beq_iff_eq, or_assoc] using h

theorem dClass_facts {c : Char} (h : dClass c = true) :
    jsWs c = false ∧ isAP c = false ∧ c ≠ ']' ∧ c ≠ '[' ∧ dotC c = true := by
  rcases dClass_cases h with hd | rfl
  · have hws : jsWs c = false := isDigit_not_ws hd
    have hap : isAP c = false := by
      cases ha : isAP c with
      | false => rfl
      | true =>
        rcases isAP_cases ha with rfl|rfl|rfl|rfl <;> exact absurd hd (by decide)
    exact ⟨hws, hap, by rintro rfl; exact absurd hd (by decide),
      by rintro rfl; exact absurd hd (by decide), not_ws_dot hws⟩
  · exact ⟨by decide, by decide, by decide, by decide, by decide⟩

theorem isAP_facts {c : Char} (h : isAP c = true) :
    jsWs c = false ∧ dClass c = false ∧ c ≠ ']' ∧ c ≠ '[' ∧ dotC c = true := by
  rcases isAP_cases h with rfl | rfl | rfl | rfl <;> exact (by decide)

theorem isMm_cases {c : Char} (h : isMm c = true) : c = 'M' ∨ c = 'm' := by
  simpa [isMm, beq_iff_eq] using h

theorem isMm_facts {c : Char} (h : isMm c = true) :
    jsWs c = false ∧ dClass c = false ∧ c ≠ ']' ∧ c ≠ '[' ∧ dotC c = true := by
  rcases isMm_cases h with rfl | rfl <;> exact (by decide)

/-! ### Trim lemmas -/

theorem trimRight_cons_ne {l : List Char} {c : Char} (h : trimRight l ≠ []) :
    trimRight (c :: l) = c :: trimRight l := by
  cases ht : trimRight l with
  | nil => exact absurd ht h
  | cons d ds => simp only [trimRight, ht]

theorem trimRight_cons_not_ws {l : List Char} {c : Char} (h : jsWs c = false) :
    trimRight (c :: l) = c :: trimRight l := by
  simp only [trimRight]
  cases ht : trimRight l with
  | nil => simp [h]
  | cons d ds => rfl

theorem trimRight_eq_self {l : List Char} (h : ∀ c ∈ l, jsWs c = false) :
    trimRight l = l := by
  induction l with
  | nil => rfl
  | cons c rest ih =>
    rw [trimRight_cons_not_ws (h c (List.mem_cons_self c rest)),
      ih fun x hx => h x (List.mem_cons_of_mem c hx)]

theorem trimRight_all_ws : ∀ {S : List Char}, (∀ c ∈ S, jsWs c = true) →
    trimRight S = [] := by
  intro S
  induction S with
  | nil => intro _; rfl
  | cons c rest ih =>
    intro h
    simp only [trimRight, ih fun x hx => h x (List.mem_cons_of_mem c hx)]
    simp [h c (List.mem_cons_self c rest)]

theorem trimRight_append_ws {l S : List Char} (hS : ∀ c ∈ S, jsWs c = true) :
    trimRight (l ++ S) = trimRight l := by
  induction l with
  | nil =>
    rw [List.nil_append, trimRight_all_ws hS]
    rfl
  | cons c l' ih =>
    rw [List.cons_append]
    simp only [trimRight, ih]

theorem trimRight_append_right {l1 l2 : List Char} (h : trimRight l2 ≠ []) :
    trimRight (l1 ++ l2) = l1 ++ trimRight l2 := by
  induction l1 with
  | nil => simp
  | cons c l' ih =>
    rw [List.cons_append, trimRight_cons_ne (by simp [ih, h]), ih]
    rfl

theorem trimRight_last_not_ws {l : List Char} {x : Char} (hx : jsWs x = false) :
    trimRight (l ++ [x]) = l ++ [x] := by
  rw [trimRight_append_right (by simp [trimRight, hx]), trimRight_cons_not_ws hx]
  rfl

theorem trimRight_getLast {l : List Char} {x : Char}
    (h : (trimRight l).getLast? = some x) : jsWs x = false := by
  induction l with
  | nil => simp [trimRight] at h
  | cons c rest ih =>
    rw [trimRight] at h
    cases ht : trimRight rest with
    | nil =>
      rw [ht] at h
      by_cases hc : jsWs c = true
      · simp [hc] at h
      · simp only [hc] at h
        simp only [Bool.false_eq_true, if_false, List.getLast?_singleton,
          Option.some_inj] at h
        subst h
        simpa using hc
    | cons d ds =>
      rw [ht] at h
      rw [List.getLast?_cons_cons] at h
      exact ih (ht ▸ h)

theorem trimRight_head {l t : List Char} {c : Char}
    (h : trimRight l = c :: t) : ∃ t0, l = c :: t0 := by
  cases l with
  | nil => simp [trimRight] at h
  | cons d rest =>
    refine ⟨rest, ?_⟩
    rw [trimRight] at h
    cases ht : trimRight rest with
    | nil =>
      rw [ht] at h
      by_cases hd : jsWs d = true
      · simp [hd] at h
      · simp only [hd, Bool.false_eq_true, if_false] at h
        cases h
        rfl
    | cons e es =>
      rw [ht] at h
      cases h
      rfl

theorem trimLeft_cons_not_ws {l : List Char} {c : Char} (h : jsWs c = false) :
    trimLeft (c :: l) = c :: l := by
  simp [trimLeft, List.dropWhile_cons, h]

theorem jsTrim_cons_not_ws {l : List Char} {c : Char} (h : jsWs c = false) :
    jsTrim (c :: l) = c :: trimRight l := by
  rw [jsTrim, trimLeft_cons_not_ws h, trimRight_cons_not_ws h]

theorem jsTrim_getLast {l : List Char} {x : Char}
    (h : (jsTrim l).getLast? = some x) : jsWs x = false :=
  trimRight_getLast h

theorem jsTrim_head {l t : List Char} {c : Char} (h : jsTrim l = c :: t) :
    jsWs c = false := by
  obtain ⟨t0, h0⟩ := trimRight_head h
  have := List.head?_dropWhile_not jsWs l
  rw [show trimLeft l = List.dropWhile jsWs l from rfl] at h0
  rw [h0] at this
  simpa using this

/-! ### Suffix and last-character helpers -/

theorem suffix_getLast {s l : List Char} (h : s <:+ l) (hne : s ≠ []) :
    s.getLast? = l.getLast? := by
  obtain ⟨pre, rfl⟩ := h
  rw [List.getLast?_append_of_ne_nil pre hne]

theorem first_sep {sep : Char} :
    ∀ {a b x y : List Char}, a ++ sep :: x = b ++ sep :: y →
    sep ∉ a → sep ∉ b → a = b ∧ x = y := by
  intro a
  induction a with
  | nil =>
    intro b x y heq _ hb
    cases b with
    | nil => simpa using heq
    | cons c bs =>
      rw [List.nil_append, List.cons_append] at heq
      cases heq
      exact absurd (List.mem_cons_self sep bs) hb
  | cons c as ih =>
    intro b x y heq ha hb
    cases b with
    | nil =>
      rw [List.cons_append, List.nil_append] at heq
      cases heq
      exact absurd (List.mem_cons_self sep as) ha
    | cons d bs =>
      rw [List.cons_append, List.cons_append] at heq
      injection heq with hcd heq2
      subst hcd
      obtain ⟨h1, h2⟩ := ih heq2 (fun hm => ha (List.mem_cons_of_mem c hm))
        (fun hm => hb (List.mem_cons_of_mem _ hm))
      exact ⟨by rw [h1], h2⟩

theorem first_colon_split {u : List Char} (h : (':' : Char) ∈ u) :
    ∃ u1 u2, u = u1 ++ ':' :: u2 ∧ (':' : Char) ∉ u1 := by
  induction u with
  | nil => cases h
  | cons c rest ih =>
    by_cases hc : c = ':'
    · exact ⟨[], rest, by rw [hc]; rfl, by simp⟩
    · have : (':' : Char) ∈ rest := by
        rcases List.mem_cons.mp h with h1 | h1
        · exact absurd h1.symm hc
        · exact h1
      obtain ⟨u1, u2, heq, hnot⟩ := ih this
      exact ⟨c :: u1, u2, by rw [heq]; rfl, by
        intro hm
        rcases List.mem_cons.mp hm with h1 | h1
        · exact hc h1.symm
        · exact hnot h1⟩

/-! ### Greedy execution of the common tail `\s*(.+)`

Backtracking is greedy, so when the continuation always succeeds the
star consumes the maximal run; this pins down the actual value of the
content capture: it starts at the first non-whitespace character after
the separator and extends over the maximal `.`-run. -/

theorem starM_allSome {p : Char → Bool} {k : List Char → Caps → Option Caps}
    {g : List Char → Caps → Caps} (hk : ∀ s' c', k s' c' = some (g s' c')) :
    ∀ (s : List Char) (caps : Caps), starM p s k caps = some (g (s.dropWhile p) caps) := by
  intro s
  induction s with
  | nil =>
    intro caps
    simp only [starM, List.dropWhile_nil]
    exact hk [] caps
  | cons c rest ih =>
    intro caps
    simp only [starM]
    by_cases hc : p c = true
    · simp [hc, ih caps, List.dropWhile_cons]
    · simp [hc, hk, List.dropWhile_cons]

theorem starM_deep {p : Char → Bool} {k : List Char → Caps → Option Caps} :
    ∀ {s : List Char} {caps v : Caps},
    k (s.dropWhile p) caps = some v → starM p s k caps = some v := by
  intro s
  induction s with
  | nil =>
    intro caps v h
    rw [List.dropWhile_nil] at h
    exact h
  | cons c rest ih =>
    intro caps v h
    simp only [starM]
    by_cases hc : p c = true
    · rw [List.dropWhile_cons, if_pos hc] at h
      rw [if_pos hc, ih h]
    · rw [List.dropWhile_cons, if_neg hc] at h
      rw [if_neg hc]
      exact h

/-- The continuation applied by `tailT`'s capture group. -/
def grpK : List Char → Caps → Option Caps :=
  fun s2 c2 => matchM (.group 3 (rePlus dotC)) s2 topK c2

theorem tailT_unfold {s : List Char} {caps : Caps} :
    matchM tailT s topK caps = starM jsWs s grpK caps := rfl

theorem grp3_nil {c2 : Caps} : grpK [] c2 = none := by
  simp only [grpK, rePlus, matchM]

theorem grp3_none {h0 : Char} {t : List Char} {c2 : Caps} (hd : dotC h0 = false) :
    grpK (h0 :: t) c2 = none := by
  simp only [grpK, rePlus, matchM, hd, Bool.false_eq_true, if_false]

theorem grp3_some {h0 : Char} {t : List Char} {c2 : Caps} (hd : dotC h0 = true) :
    grpK (h0 :: t) c2 = some (setCap 3 (h0 :: t.takeWhile dotC) c2) := by
  simp only [grpK, rePlus, matchM, hd, if_true]
  have hk : ∀ s' c', (fun s1 c1 => topK s1
      (setCap 3 ((h0 :: t).take ((h0 :: t).length - s1.length)) c1)) s' c' =
      some (setCap 3 ((h0 :: t).take ((h0 :: t).length - s'.length)) c') :=
    fun s' c' => rfl
  rw [starM_allSome hk t c2]
  have hlen : (t.takeWhile dotC).length + (t.dropWhile dotC).length = t.length := by
    rw [← List.length_append, List.takeWhile_append_dropWhile]
  have harith : (h0 :: t).length - (t.dropWhile dotC).length =
      (t.takeWhile dotC).length + 1 := by
    simp only [List.length_cons]
    omega
  rw [harith]
  have htake : (h0 :: t).take ((t.takeWhile dotC).length + 1) =
      h0 :: t.takeWhile dotC := by
    rw [List.take_succ_cons]
    congr 1
    have hsplit : t = t.takeWhile dotC ++ t.dropWhile dotC :=
      (List.takeWhile_append_dropWhile dotC t).symm
    calc t.take (t.takeWhile dotC).length
        = (t.takeWhile dotC ++ t.dropWhile dotC).take (t.takeWhile dotC).length := by
          rw [← hsplit]
      _ = t.takeWhile dotC := List.take_left _ _
  rw [htake]

theorem tailT_run : ∀ {s : List Char} {caps v : Caps},
    (∀ x, s.getLast? = some x → jsWs x = false) →
    matchM tailT s topK caps = some v →
    ∃ h0 w, v = setCap 3 (h0 :: w) caps ∧ jsWs h0 = false ∧
      (∀ c ∈ h0 :: w, dotC c = true) := by
  intro s
  induction s with
  | nil =>
    intro caps v _ h
    rw [tailT_unfold] at h
    simp only [starM, grp3_nil] at h
    cases h
  | cons c rest ih =>
    intro caps v hend h
    rw [tailT_unfold] at h
    simp only [starM] at h
    by_cases hc : jsWs c = true
    · rw [if_pos hc] at h
      cases hrec : starM jsWs rest grpK caps with
      | some v' =>
        rw [hrec] at h
        cases h
        cases rest with
        | nil =>
          simp only [starM, grp3_nil] at hrec
          cases hrec
        | cons d ds =>
          have hend' : ∀ x, (d :: ds).getLast? = some x → jsWs x = false := by
            intro x hx
            exact hend x (by rw [List.getLast?_cons_cons]; exact hx)
          exact ih hend' (by rw [tailT_unfold]; exact hrec)
      | none =>
        rw [hrec] at h
        exfalso
        cases hrest : rest with
        | nil =>
          subst hrest
          exact absurd (hend c (by simp)) (by simp [hc])
        | cons d ds =>
          subst hrest
          have hlast : jsWs ((d :: ds).getLast (by simp)) = false := by
            refine hend _ ?_
            rw [List.getLast?_cons_cons, List.getLast?_eq_getLast _ (by simp)]
          have hdrop : List.dropWhile jsWs (d :: ds) ≠ [] := by
            intro hdw
            have hall := List.dropWhile_eq_nil_iff.mp hdw
            exact absurd (hall _ (List.getLast_mem (by simp))) (by simp [hlast])
          cases hdw : List.dropWhile jsWs (d :: ds) with
          | nil => exact hdrop hdw
          | cons e es =>
            have he : jsWs e = false := by
              have := List.head?_dropWhile_not jsWs (d :: ds)
              rw [hdw] at this
              simpa using this
            have : starM jsWs (d :: ds) grpK caps =
                some (setCap 3 (e :: es.takeWhile dotC) caps) := by
              apply starM_deep
              rw [hdw]
              exact grp3_some (not_ws_dot he)
            rw [this] at hrec
            cases hrec
    · rw [if_neg hc] at h
      have hc' : jsWs c = false := by simpa using hc
      rw [grp3_some (not_ws_dot hc')] at h
      cases h
      refine ⟨c, rest.takeWhile dotC, rfl, hc', ?_⟩
      intro x hx
      rcases List.mem_cons.mp hx with rfl | hx
      · exact not_ws_dot hc'
      · exact List.mem_takeWhile_imp hx

/-! ### Patterns ending in the common tail -/

inductive EndsT : RE → Prop
  | base : EndsT tailT
  | step {a b : RE} : EndsT b → EndsT (.seq a b)

theorem endsT_decomp {r : RE} (h : EndsT r) :
    ∀ {s : List Char} {caps v : Caps}, matchM r s topK caps = some v →
    ∃ s1 c1, s1 <:+ s ∧ matchM tailT s1 topK c1 = some v := by
  induction h with
  | base =>
    intro s caps v hm
    exact ⟨s, caps, List.suffix_refl s, hm⟩
  | step hb ih =>
    intro s caps v hm
    simp only [matchM] at hm
    obtain ⟨w, s1, f, hsplit, _, hk⟩ := matchM_sound hm
    obtain ⟨s2, c2, hsuf, hT⟩ := ih hk
    exact ⟨s2, c2, hsuf.trans ⟨w, hsplit.symm⟩, hT⟩

theorem endsT_discord : EndsT discordRE :=
  .step (.step (.step (.step (.step (.step .base)))))

theorem endsT_whatsapp1 : EndsT whatsapp1RE :=
  .step (.step (.step (.step (.step (.step .base)))))

theorem endsT_whatsapp2 : EndsT whatsapp2RE :=
  .step (.step (.step (.step (.step .base))))

theorem endsT_generic1 : EndsT generic1RE :=
  .step (.step (.step (.step (.step (.step .base)))))

theorem endsT_standard : EndsT standardRE :=
  .step (.step (.step (.step (.step (.step .base)))))

/-! ### Characters surviving `cleanUsername` -/

theorem collapseWs_mem : ∀ {l : List Char} {x : Char}, x ∈ collapseWs l →
    x = ' ' ∨ (x ∈ l ∧ jsWs x = false)
  | [], x => by simp [collapseWs]
  | [c], x => by
    by_cases hc : jsWs c = true
    · simp only [collapseWs, hc, if_true, List.mem_singleton]
      exact fun h => Or.inl h
    · simp only [collapseWs, hc, Bool.false_eq_true, if_false, List.mem_singleton]
      intro h
      subst h
      exact Or.inr ⟨rfl, by simpa using hc⟩
  | c :: d :: rest, x => by
    intro hx
    by_cases hc : jsWs c = true
    · by_cases hd : jsWs d = true
      · rw [show collapseWs (c :: d :: rest) = collapseWs (d :: rest) by
          simp [collapseWs, hc, hd]] at hx
        rcases collapseWs_mem hx with h | ⟨hm, hw⟩
        · exact Or.inl h
        · exact Or.inr ⟨List.mem_cons_of_mem c hm, hw⟩
      · rw [show collapseWs (c :: d :: rest) = ' ' :: collapseWs (d :: rest) by
          simp [collapseWs, hc, hd]] at hx
        rcases List.mem_cons.mp hx with rfl | hx
        · exact Or.inl rfl
        · rcases collapseWs_mem hx with h | ⟨hm, hw⟩
          · exact Or.inl h
          · exact Or.inr ⟨List.mem_cons_of_mem c hm, hw⟩
    · rw [show collapseWs (c :: d :: rest) = c :: collapseWs (d :: rest) by
        simp [collapseWs, hc]] at hx
      rcases List.mem_cons.mp hx with rfl | hx
      · exact Or.inr ⟨List.mem_cons_self x _, by simpa using hc⟩
      · rcases collapseWs_mem hx with h | ⟨hm, hw⟩
        · exact Or.inl h
        · exact Or.inr ⟨List.mem_cons_of_mem c hm, hw⟩

theorem stripTrailColons_subset {l : List Char} : stripTrailColons l ⊆ l := by
  induction l with
  | nil => simp [stripTrailColons]
  | cons c rest ih =>
    simp only [stripTrailColons]
    cases h : stripTrailColons rest with
    | nil =>
      by_cases hc : c = ':'
      · simp [hc]
      · simp only [hc, if_false]
        intro x hx
        simp only [List.mem_singleton] at hx
        simp [hx]
    | cons d ds =>
      intro x hx
      rcases List.mem_cons.mp hx with h2 | h2
      · simp [h2]
      · exact List.mem_cons_of_mem c (ih (by rw [h]; exact h2))

theorem cleanUsernameL_chars {u : List Char} {x : Char}
    (hx : x ∈ cleanUsernameL u) : x = ' ' ∨ (x ∈ u ∧ jsWs x = false) := by
  unfold cleanUsernameL at hx
  have hx2 := jsTrim_subset (stripTrailColons_subset hx)
  rcases collapseWs_mem hx2 with h | ⟨hm, hw⟩
  · exact Or.inl h
  · exact Or.inr ⟨List.mem_of_mem_filter hm, hw⟩

theorem cleanUsernameL_dot {u : List Char} :
    ∀ c ∈ cleanUsernameL u, dotC c = true := by
  intro c hc
  rcases cleanUsernameL_chars hc with rfl | ⟨_, hw⟩
  · decide
  · exact not_ws_dot hw

/-! ### Structural inversion helpers for `Matches` -/

theorem Matches_seq_inv {a b : RE} {w : List Char} {f : Caps → Caps}
    (h : Matches (.seq a b) w f) :
    ∃ w1 w2 f1 f2, w = w1 ++ w2 ∧ f = f2 ∘ f1 ∧ Matches a w1 f1 ∧ Matches b w2 f2 := by
  cases h with
  | seq h1 h2 => exact ⟨_, _, _, _, rfl, rfl, h1, h2⟩

theorem Matches_cls_inv {p : Char → Bool} {w : List Char} {f : Caps → Caps}
    (h : Matches (.cls p) w f) : ∃ c, w = [c] ∧ p c = true := by
  cases h with
  | cls hp => exact ⟨_, rfl, hp⟩

theorem Matches_char_inv {c : Char} {w : List Char} {f : Caps → Caps}
    (h : Matches (.char c) w f) : w = [c] ∧ f = id := by
  cases h
  exact ⟨rfl, rfl⟩

theorem Matches_star_inv {p : Char → Bool} {w : List Char} {f : Caps → Caps}
    (h : Matches (.starCls p) w f) : (∀ c ∈ w, p c = true) ∧ f = id := by
  cases h with
  | star hp => exact ⟨hp, rfl⟩

theorem Matches_opt_inv {a : RE} {w : List Char} {f : Caps → Caps}
    (h : Matches (.opt a) w f) : w = [] ∨ Matches a w f := by
  cases h with
  | optSome h0 => exact Or.inr h0
  | optNone => exact Or.inl rfl

theorem Matches_alt_inv {a b : RE} {w : List Char} {f : Caps → Caps}
    (h : Matches (.alt a b) w f) : Matches a w f ∨ Matches b w f := by
  cases h with
  | altL h0 => exact Or.inl h0
  | altR h0 => exact Or.inr h0

theorem Matches_group_inv {i : Nat} {a : RE} {w : List Char} {f : Caps → Caps}
    (h : Matches (.group i a) w f) :
    ∃ f0, Matches a w f0 ∧ f = fun caps => setCap i w (f0 caps) := by
  cases h with
  | group h0 => exact ⟨_, h0, rfl⟩

/-! ### The timestamp sub-pattern: inversion and construction -/

theorem timeRE_inv {t : List Char} {f : Caps → Caps} (h : Matches timeRE t f) :
    (∀ caps, f caps = caps) ∧
    ∃ D S M, t = D ++ (S ++ M) ∧ D ≠ [] ∧ (∀ c ∈ D, dClass c = true) ∧
      (∀ c ∈ S, jsWs c = true) ∧
      (M = [] ∨ ∃ a m, M = [a, m] ∧ isAP a = true ∧ isMm m = true) := by
  refine ⟨Matches_id_of_groupfree (by decide) h, ?_⟩
  have h' : Matches (.seq (rePlus dClass)
      (.seq (.starCls jsWs) (.opt (.alt (.seq (.cls isA) (.cls isMm))
        (.seq (.cls isP) (.cls isMm)))))) t f := h
  obtain ⟨w1, w2, f1, f2, rfl, -, hplus, hrest⟩ := Matches_seq_inv h'
  obtain ⟨wc, wstar, fc, fstar, rfl, -, hcls, hstar⟩ := Matches_seq_inv hplus
  obtain ⟨c, rfl, hpc⟩ := Matches_cls_inv hcls
  have hall := (Matches_star_inv hstar).1
  obtain ⟨S, wM, fS, fM, rfl, -, hS, hopt⟩ := Matches_seq_inv hrest
  have hSall := (Matches_star_inv hS).1
  have hD : ∀ x ∈ c :: wstar, dClass x = true := by
    intro x hx
    rcases List.mem_cons.mp hx with rfl | hx
    · exact hpc
    · exact hall x hx
  rcases Matches_opt_inv hopt with rfl | halt
  · exact ⟨c :: wstar, S, [], by simp, by simp, hD, hSall, Or.inl rfl⟩
  · rcases Matches_alt_inv halt with hside | hside
    · obtain ⟨wA, wM2, fA, fM2, rfl, -, hA, hM⟩ := Matches_seq_inv hside
      obtain ⟨a, rfl, hA'⟩ := Matches_cls_inv hA
      obtain ⟨m, rfl, hM'⟩ := Matches_cls_inv hM
      exact ⟨c :: wstar, S, [a, m], by simp, by simp, hD, hSall,
        Or.inr ⟨a, m, rfl, by simp [isAP, hA'], hM'⟩⟩
    · obtain ⟨wA, wM2, fA, fM2, rfl, -, hA, hM⟩ := Matches_seq_inv hside
      obtain ⟨a, rfl, hA'⟩ := Matches_cls_inv hA
      obtain ⟨m, rfl, hM'⟩ := Matches_cls_inv hM
      exact ⟨c :: wstar, S, [a, m], by simp, by simp, hD, hSall,
        Or.inr ⟨a, m, rfl, by simp [isAP, hA'], hM'⟩⟩

theorem timeRE_no_rbracket {t : List Char} {f : Caps → Caps}
    (h : Matches timeRE t f) : (']' : Char) ∉ t := by
  obtain ⟨-, D, S, M, rfl, -, hDall, hSall, hM⟩ := timeRE_inv h
  intro hmem
  rcases List.mem_append.mp hmem with hd | hsm
  · exact absurd (hDall _ hd) (by intro hc; exact absurd (dClass_facts hc).2.2.1 (by simp))
  · rcases List.mem_append.mp hsm with hs | hm2
    · exact absurd (hSall _ hs) (by intro hc; exact absurd (ws_facts hc).2.2.2.2.1 (by simp))
    · rcases hM with rfl | ⟨a, m, rfl, ha, hmm⟩
      · cases hm2
      · rcases List.mem_cons.mp hm2 with h1 | h1
        · exact absurd (ha ▸ h1 ▸ ha) (by
            rw [← h1] at ha
            exact absurd (isAP_facts ha).2.2.1 (by simp [h1]))
        · simp only [List.mem_singleton] at h1
          rw [← h1] at hmm
          exact absurd (isMm_facts hmm).2.2.1 (by simp [h1])

theorem timeRE_construct {D S M : List Char} (hD : D ≠ [])
    (hDall : ∀ c ∈ D, dClass c = true) (hSall : ∀ c ∈ S, jsWs c = true)
    (hM : M = [] ∨ M = ['A', 'M'] ∨ M = ['P', 'M']) :
    ∃ f, Matches timeRE (D ++ (S ++ M)) f := by
  obtain ⟨d, D', rfl⟩ : ∃ d D', D = d :: D' := by
    cases D with
    | nil => exact absurd rfl hD
    | cons d D' => exact ⟨d, D', rfl⟩
  have hplus : Matches (rePlus dClass) (d :: D') (id ∘ id) :=
    Matches.seq (Matches.cls (hDall d (List.mem_cons_self d D')))
      (Matches.star fun x hx => hDall x (List.mem_cons_of_mem d hx))
  have hopt : ∃ fM, Matches (.opt (.alt (.seq (.cls isA) (.cls isMm))
      (.seq (.cls isP) (.cls isMm)))) M fM := by
    rcases hM with rfl | rfl | rfl
    · exact ⟨id, Matches.optNone⟩
    · exact ⟨id ∘ id, Matches.optSome (Matches.altL
        (Matches.seq (Matches.cls (by decide)) (Matches.cls (by decide))))⟩
    · exact ⟨id ∘ id, Matches.optSome (Matches.altR
        (Matches.seq (Matches.cls (by decide)) (Matches.cls (by decide))))⟩
  obtain ⟨fM, hfM⟩ := hopt
  exact ⟨_, Matches.seq hplus (Matches.seq (Matches.star hSall) hfM)⟩

/-! ### Scan lemmas for the two `normalizeTime` replacements -/

theorem digit_not_AP {d : Char} (hd : d.isDigit = true) : isAP d = false := by
  cases hAP : isAP d with
  | false => rfl
  | true => rcases isAP_cases hAP with rfl|rfl|rfl|rfl <;> exact absurd hd (by decide)

theorem ins_cons2 {x y : Char} {r : List Char} (hy : isAP y = false) :
    insAmPm (x :: y :: r) = x :: insAmPm (y :: r) := by
  cases r with
  | nil => rfl
  | cons z r' =>
    simp only [insAmPm, hy, Bool.and_false, Bool.false_and,
      Bool.false_eq_true, if_false]

theorem ins_main1 : ∀ (l : List Char) (a m : Char),
    (∀ c ∈ l, isAP c = false) →
    (∀ d, l.getLast? = some d → d.isDigit = false) →
    insAmPm (l ++ [a, m]) = l ++ [a, m]
  | [], a, m, _, _ => rfl
  | [d], a, m, _, hlast => by
    have hd : d.isDigit = false := hlast d rfl
    show insAmPm (d :: a :: m :: []) = d :: a :: m :: []
    simp [insAmPm, hd]
  | d :: e :: l', a, m, hl, hlast => by
    have he : isAP e = false := hl e (List.mem_cons_of_mem d (List.mem_cons_self e l'))
    rw [List.cons_append, List.cons_append, ins_cons2 he,
      show e :: (l' ++ [a, m]) = (e :: l') ++ [a, m] from rfl,
      ins_main1 (e :: l') a m (fun c hc => hl c (List.mem_cons_of_mem d hc))
        (fun x hx => hlast x (by rwa [List.getLast?_cons_cons]))]

theorem ins_main2 : ∀ (l : List Char) (d a m : Char),
    (∀ c ∈ l, isAP c = false) → d.isDigit = true → isAP a = true → isMm m = true →
    insAmPm (l ++ d :: a :: m :: []) = l ++ d :: ' ' :: a :: m :: []
  | [], d, a, m, _, hd, ha, hm => by
    simp only [List.nil_append, insAmPm, hd, ha, hm, Bool.and_self, if_true]
  | x :: l', d, a, m, hl, hd, ha, hm => by
    have hnext : isAP ((l' ++ d :: a :: m :: []).headI) = false := by
      cases l' with
      | nil => exact digit_not_AP hd
      | cons y l'' => exact hl y (List.mem_cons_of_mem x (List.mem_cons_self y l''))
    rw [List.cons_append]
    cases hsplit : l' ++ d :: a :: m :: [] with
    | nil => exact absurd hsplit (by simp)
    | cons y rest =>
      have hy : isAP y = false := by
        rw [hsplit] at hnext
        simpa using hnext
      rw [ins_cons2 hy, ← hsplit,
        ins_main2 l' d a m (fun c hc => hl c (List.mem_cons_of_mem x hc)) hd ha hm,
        List.cons_append]

theorem ins_noAP : ∀ (l : List Char), (∀ c ∈ l, isAP c = false) → insAmPm l = l
  | [], _ => rfl
  | [_], _ => rfl
  | x :: y :: r, hl => by
    have hy : isAP y = false := hl y (List.mem_cons_of_mem x (List.mem_cons_self y r))
    rw [ins_cons2 hy, ins_noAP (y :: r) (fun c hc => hl c (List.mem_cons_of_mem x hc))]

theorem up_cons {x : Char} {r : List Char} (hx : isAP x = false) :
    upAmPm (x :: r) = x :: upAmPm r := by
  cases r with
  | nil => rfl
  | cons y r' =>
    simp only [upAmPm, hx, Bool.false_and, Bool.false_eq_true, if_false]

theorem up_noAP : ∀ (l : List Char), (∀ c ∈ l, isAP c = false) → upAmPm l = l
  | [], _ => rfl
  | x :: r, hl => by
    rw [up_cons (hl x (List.mem_cons_self x r)),
      up_noAP r (fun c hc => hl c (List.mem_cons_of_mem x hc))]

theorem up_main : ∀ (l : List Char) (a m : Char) (r : List Char),
    (∀ c ∈ l, isAP c = false) → isAP a = true → isMm m = true →
    upAmPm (l ++ a :: m :: r) = l ++ a.toUpper :: m.toUpper :: r
  | [], a, m, r, _, ha, hm => by
    simp only [List.nil_append, upAmPm, ha, hm, Bool.and_self, if_true]
  | x :: l', a, m, r, hl, ha, hm => by
    rw [List.cons_append, up_cons (hl x (List.mem_cons_self x l')),
      up_main l' a m r (fun c hc => hl c (List.mem_cons_of_mem x hc)) ha hm]
    rfl

theorem toUpper_AP {a : Char} (ha : isAP a = true) :
    a.toUpper = 'A' ∨ a.toUpper = 'P' := by
  rcases isAP_cases ha with rfl | rfl | rfl | rfl
  · exact Or.inl (by decide)
  · exact Or.inl (by decide)
  · exact Or.inr (by decide)
  · exact Or.inr (by decide)

theorem toUpper_M {m : Char} (hm : isMm m = true) : m.toUpper = 'M' := by
  rcases isMm_cases hm with rfl | rfl <;> decide

/-! ### Good timestamps

A parsed message's time field always has the shape
digit/colon-block ++ whitespace ++ optional uppercase meridiem marker,
is trim- and normalize-fixed, and contains neither `]` nor a newline;
this is exactly what the serialization round trip needs. -/

def timeShape (t : List Char) : Prop :=
  ∃ D S M, t = D ++ S ++ M ∧ D ≠ [] ∧ (∀ c ∈ D, dClass c = true) ∧
    (∀ c ∈ S, jsWs c = true) ∧ (M = [] ∨ M = ['A', 'M'] ∨ M = ['P', 'M'])

def timeGood (t : List Char) : Prop :=
  timeShape t ∧ jsTrim t = t ∧ normTimeL t = t ∧
    (']' : Char) ∉ t ∧ ('\n' : Char) ∉ t

theorem getLast?_mem_of {l : List Char} {x : Char} (h : l.getLast? = some x) :
    x ∈ l := by
  cases l with
  | nil => cases h
  | cons c rest =>
    rw [List.getLast?_eq_getLast _ (by simp)] at h
    injection h with h2
    rw [← h2]
    exact List.getLast_mem _

theorem dClass_no_nl {D : List Char} (hD : ∀ c ∈ D, dClass c = true) :
    ('\n' : Char) ∉ D := fun hmem => absurd (hD _ hmem) (by decide)

theorem dClass_no_rb {D : List Char} (hD : ∀ c ∈ D, dClass c = true) :
    (']' : Char) ∉ D := fun hmem => absurd (hD _ hmem) (by decide)

theorem jsTrim_D {D : List Char} (hD : D ≠ []) (hDall : ∀ c ∈ D, dClass c = true) :
    jsTrim D = D := by
  obtain ⟨d, D', rfl⟩ := List.exists_cons_of_ne_nil hD
  rw [jsTrim_cons_not_ws (dClass_facts (hDall d (List.mem_cons_self d D'))).1,
    trimRight_eq_self fun c hc => (dClass_facts (hDall c (List.mem_cons_of_mem d hc))).1]

theorem timeGood_D {D : List Char} (hD : D ≠ []) (hDall : ∀ c ∈ D, dClass c = true) :
    timeGood D := by
  have hAP : ∀ c ∈ D, isAP c = false := fun c hc => (dClass_facts (hDall c hc)).2.1
  refine ⟨⟨D, [], [], by simp, hD, hDall, by simp, Or.inl rfl⟩,
    jsTrim_D hD hDall, ?_, dClass_no_rb hDall, dClass_no_nl hDall⟩
  rw [normTimeL, ins_noAP D hAP, up_noAP D hAP]

theorem timeGood_parts (D S' : List Char) (x : Char)
    (hD : D ≠ []) (hDall : ∀ c ∈ D, dClass c = true)
    (hS'all : ∀ c ∈ S', jsWs c = true) (hS'nl : ('\n' : Char) ∉ S')
    (hW : S' = [] → ∀ d, D.getLast? = some d → d.isDigit = false)
    (hx : x = 'A' ∨ x = 'P') :
    timeGood (D ++ S' ++ [x, 'M']) := by
  obtain ⟨d, D', rfl⟩ := List.exists_cons_of_ne_nil hD
  have hdws : jsWs d = false := (dClass_facts (hDall d (List.mem_cons_self d D'))).1
  have hAPds : ∀ c ∈ (d :: D') ++ S', isAP c = false := by
    intro c hc
    rcases List.mem_append.mp hc with h | h
    · exact (dClass_facts (hDall c h)).2.1
    · exact (ws_facts (hS'all c h)).2.1
  have hxAP : isAP x = true := by rcases hx with rfl | rfl <;> decide
  have hxm_nws : ∀ c ∈ [x, 'M'], jsWs c = false := by
    intro c hc
    rcases List.mem_cons.mp hc with rfl | hc
    · rcases hx with rfl | rfl <;> decide
    · simp only [List.mem_singleton] at hc
      subst hc
      decide
  refine ⟨⟨d :: D', S', [x, 'M'], rfl, by simp, hDall, hS'all, ?_⟩, ?_, ?_, ?_, ?_⟩
  · rcases hx with rfl | rfl
    · exact Or.inr (Or.inl rfl)
    · exact Or.inr (Or.inr rfl)
  · -- trim-fixed
    have h1 : (d :: D') ++ S' ++ [x, 'M'] = d :: (D' ++ S' ++ [x, 'M']) := by simp
    rw [h1, jsTrim_cons_not_ws hdws]
    have h2 : trimRight ((D' ++ S') ++ [x, 'M']) = (D' ++ S') ++ [x, 'M'] := by
      rw [trimRight_append_right (by rw [trimRight_eq_self hxm_nws]; simp),
        trimRight_eq_self hxm_nws]
    rw [show D' ++ S' ++ [x, 'M'] = (D' ++ S') ++ [x, 'M'] by simp, h2]
  · -- normalize-fixed
    have hlast : ∀ d0, ((d :: D') ++ S').getLast? = some d0 → d0.isDigit = false := by
      intro d0 hd0
      cases hS' : S' with
      | nil =>
        rw [hS'] at hd0
        rw [List.append_nil] at hd0
        exact hW hS' d0 hd0
      | cons s S0 =>
        rw [hS'] at hd0
        rw [List.getLast?_append_of_ne_nil _ (by simp)] at hd0
        have hmem : d0 ∈ s :: S0 := getLast?_mem_of hd0
        exact (ws_facts (hS'all d0 (hS' ▸ hmem))).2.2.2.1
    have hform : (d :: D') ++ S' ++ [x, 'M'] = ((d :: D') ++ S') ++ [x, 'M'] := by simp
    rw [normTimeL, hform, ins_main1 _ _ _ hAPds hlast]
    have hform2 : ((d :: D') ++ S') ++ [x, 'M'] = ((d :: D') ++ S') ++ x :: 'M' :: [] :=
      rfl
    rw [hform2, up_main _ _ _ _ hAPds hxAP (by decide)]
    have hxu : x.toUpper = x := by rcases hx with rfl | rfl <;> decide
    rw [hxu, show ('M' : Char).toUpper = 'M' by decide]
  · -- no right bracket
    intro hmem
    rcases List.mem_append.mp hmem with h | h
    · rcases List.mem_append.mp h with h2 | h2
      · exact absurd (hDall _ h2) (by decide)
      · exact absurd (hS'all _ h2) (by intro hc; exact (ws_facts hc).2.2.2.2.1 rfl)
    · rcases List.mem_cons.mp h with h2 | h2
      · rcases hx with rfl | rfl <;> simp at h2
      · simp at h2
  · -- no newline
    intro hmem
    rcases List.mem_append.mp hmem with h | h
    · rcases List.mem_append.mp h with h2 | h2
      · exact dClass_no_nl hDall h2
      · exact hS'nl h2
    · rcases List.mem_cons.mp h with h2 | h2
      · rcases hx with rfl | rfl <;> simp at h2
      · simp at h2

theorem timeGood_capture {w : List Char} {f : Caps → Caps}
    (h : Matches timeRE w f) (hnl : ('\n' : Char) ∉ w) :
    timeGood (normTimeL (jsTrim w)) := by
  obtain ⟨-, D, S, M, rfl, hD, hDall, hSall, hM⟩ := timeRE_inv h
  have hSnl : ('\n' : Char) ∉ S := fun hmem => hnl (by simp [hmem])
  have hDAP : ∀ c ∈ D, isAP c = false := fun c hc => (dClass_facts (hDall c hc)).2.1
  obtain ⟨d, D', rfl⟩ := List.exists_cons_of_ne_nil hD
  have hdws : jsWs d = false := (dClass_facts (hDall d (List.mem_cons_self d D'))).1
  rcases hM with rfl | ⟨a, m, rfl, ha, hm⟩
  · -- no meridiem marker: everything normalizes to the digit block
    have htrim : jsTrim ((d :: D') ++ (S ++ [])) = d :: D' := by
      rw [List.append_nil, show (d :: D') ++ S = d :: (D' ++ S) from rfl,
        jsTrim_cons_not_ws hdws, trimRight_append_ws hSall,
        trimRight_eq_self fun c hc =>
          (dClass_facts (hDall c (List.mem_cons_of_mem d hc))).1]
    rw [htrim, normTimeL, ins_noAP _ hDAP, up_noAP _ hDAP]
    exact timeGood_D hD hDall
  · -- meridiem marker present
    have hanws : jsWs a = false := (isAP_facts ha).1
    have hmnws : jsWs m = false := (isMm_facts hm).1
    have htrim : jsTrim ((d :: D') ++ (S ++ [a, m])) = (d :: D') ++ (S ++ [a, m]) := by
      rw [show (d :: D') ++ (S ++ [a, m]) = d :: (D' ++ (S ++ [a, m])) from rfl,
        jsTrim_cons_not_ws hdws]
      have h2 : trimRight (D' ++ (S ++ [a, m])) = D' ++ (S ++ [a, m]) := by
        have ham : trimRight [a, m] = [a, m] := by
          apply trimRight_eq_self
          intro c hc
          rcases List.mem_cons.mp hc with rfl | hc
          · exact hanws
          · simp only [List.mem_singleton] at hc
            subst hc
            exact hmnws
        rw [show D' ++ (S ++ [a, m]) = (D' ++ S) ++ [a, m] by simp,
          trimRight_append_right (by rw [ham]; simp), ham]
      rw [h2]
    rw [htrim]
    cases hS : S with
    | nil =>
      subst hS
      simp only [List.nil_append]
      obtain ⟨d0, hd0⟩ : ∃ d0, (d :: D').getLast? = some d0 :=
        ⟨_, List.getLast?_eq_getLast _ (by simp)⟩
      by_cases hdig : d0.isDigit = true
      · -- a space is inserted between the digit and the marker
        have hDsplit : d :: D' = (d :: D').dropLast ++ [d0] := by
          have h1 := List.dropLast_append_getLast (show d :: D' ≠ [] by simp)
          rw [List.getLast?_eq_getLast _ (by simp)] at hd0
          injection hd0 with hd0'
          rw [hd0'] at h1
          exact h1.symm
        have hAPdrop : ∀ c ∈ (d :: D').dropLast, isAP c = false := fun c hc =>
          hDAP c (List.dropLast_subset _ hc)
        have hins : insAmPm ((d :: D') ++ [a, m]) =
            (d :: D') ++ ' ' :: a :: m :: [] := by
          conv_lhs => rw [hDsplit]
          rw [show ((d :: D').dropLast ++ [d0]) ++ [a, m] =
            (d :: D').dropLast ++ d0 :: a :: m :: [] by simp,
            ins_main2 _ _ _ _ hAPdrop hdig ha hm,
            show (d :: D').dropLast ++ d0 :: ' ' :: a :: m :: [] =
              ((d :: D').dropLast ++ [d0]) ++ ' ' :: a :: m :: [] by simp, ← hDsplit]
        have hspAP : ∀ c ∈ (d :: D') ++ [' '], isAP c = false := by
          intro c hc
          rcases List.mem_append.mp hc with h2 | h2
          · exact hDAP c h2
          · simp only [List.mem_singleton] at h2
            subst h2
            decide
        have hup : upAmPm ((d :: D') ++ ' ' :: a :: m :: []) =
            ((d :: D') ++ [' ']) ++ a.toUpper :: m.toUpper :: [] := by
          rw [show (d :: D') ++ ' ' :: a :: m :: [] =
            ((d :: D') ++ [' ']) ++ a :: m :: [] by simp]
          exact up_main _ _ _ _ hspAP ha hm
        rw [normTimeL, hins, hup, toUpper_M hm]
        have hsws : ∀ c ∈ [' '], jsWs c = true := by
          intro c hc
          simp only [List.mem_singleton] at hc
          subst hc
          decide
        have := timeGood_parts (d :: D') [' '] a.toUpper
          (by simp) hDall hsws (by simp) (by intro h2; cases h2) (toUpper_AP ha)
        simpa using this
      · -- no insertion: the digit block ends in a colon
        have hins : insAmPm ((d :: D') ++ [a, m]) = (d :: D') ++ [a, m] := by
          apply ins_main1 _ _ _ hDAP
          intro d1 hd1
          rw [hd0] at hd1
          injection hd1 with hd1'
          rw [← hd1']
          simpa using hdig
        have hup : upAmPm ((d :: D') ++ [a, m]) =
            (d :: D') ++ a.toUpper :: m.toUpper :: [] := by
          rw [show (d :: D') ++ [a, m] = (d :: D') ++ a :: m :: [] from rfl]
          exact up_main _ _ _ _ hDAP ha hm
        rw [normTimeL, hins, hup, toUpper_M hm]
        have := timeGood_parts (d :: D') [] a.toUpper
          (by simp) hDall (by simp) (by simp)
          (by
            intro _ d1 hd1
            rw [hd0] at hd1
            injection hd1 with hd1'
            rw [← hd1']
            simpa using hdig) (toUpper_AP ha)
        simpa using this
    | cons s S0 =>
      subst hS
      have hSAP : ∀ c ∈ (d :: D') ++ (s :: S0), isAP c = false := by
        intro c hc
        rcases List.mem_append.mp hc with h2 | h2
        · exact hDAP c h2
        · exact (ws_facts (hSall c h2)).2.1
      have hins : insAmPm ((d :: D') ++ (s :: S0 ++ [a, m])) =
          (d :: D') ++ (s :: S0 ++ [a, m]) := by
        rw [show (d :: D') ++ (s :: S0 ++ [a, m]) =
          ((d :: D') ++ (s :: S0)) ++ [a, m] by simp]
        rw [ins_main1 _ _ _ hSAP (by
          intro d1 hd1
          rw [List.getLast?_append_of_ne_nil _ (by simp)] at hd1
          exact (ws_facts (hSall d1 (getLast?_mem_of hd1))).2.2.2.1)]
      have hup : upAmPm ((d :: D') ++ (s :: S0 ++ [a, m])) =
          ((d :: D') ++ (s :: S0)) ++ a.toUpper :: m.toUpper :: [] := by
        rw [show (d :: D') ++ (s :: S0 ++ [a, m]) =
          ((d :: D') ++ (s :: S0)) ++ a :: m :: [] by simp]
        exact up_main _ _ _ _ hSAP ha hm
      rw [normTimeL, hins, hup, toUpper_M hm]
      have := timeGood_parts (d :: D') (s :: S0) a.toUpper
        (by simp) hDall hSall hSnl (by intro h2; cases h2) (toUpper_AP ha)
      simpa using this

/-! ### Per-pattern capture inversions

Each single-line pattern stores its timestamp capture under a fixed
group index; inverting a derivation recovers the captured word and shows
the final capture environment maps that index to it. -/

theorem rePlus_inv {p : Char → Bool} {w : List Char} {f : Caps → Caps}
    (h : Matches (rePlus p) w f) :
    w ≠ [] ∧ (∀ c ∈ w, p c = true) ∧ ∀ caps, f caps = caps := by
  have hid := Matches_id_of_groupfree (by exact rfl) h
  obtain ⟨w1, w2, f1, f2, rfl, -, hc, hs⟩ := Matches_seq_inv h
  obtain ⟨c, rfl, hpc⟩ := Matches_cls_inv hc
  have hall := (Matches_star_inv hs).1
  refine ⟨by simp, ?_, hid⟩
  intro x hx
  rcases List.mem_append.mp hx with h1 | h1
  · simp only [List.mem_singleton] at h1
    subst h1
    exact hpc
  · exact hall x h1

theorem tailT_inv {w : List Char} {f : Caps → Caps} (h : Matches tailT w f) :
    ∃ g3, ∀ caps, f caps = setCap 3 g3 caps := by
  obtain ⟨w1, w2, f1, f2, rfl, rfl, hs, hg⟩ := Matches_seq_inv h
  obtain ⟨-, rfl⟩ := Matches_star_inv hs
  obtain ⟨f0, hplus, rfl⟩ := Matches_group_inv hg
  have hf0 := (rePlus_inv hplus).2.2
  exact ⟨w2, fun caps => by simp [Function.comp, hf0]⟩

theorem discordRE_inv {w : List Char} {f : Caps → Caps} (h : Matches discordRE w f) :
    ∃ t rest, w = '[' :: (t ++ ']' :: rest) ∧ (∃ ft, Matches timeRE t ft) ∧
      ∀ caps, getCap 1 (f caps) = t := by
  obtain ⟨w1, w2, f1, f2, rfl, rfl, hlb, h2⟩ := Matches_seq_inv h
  obtain ⟨rfl, rfl⟩ := Matches_char_inv hlb
  obtain ⟨t, w3, fg1, f3, rfl, rfl, hg1, h3⟩ := Matches_seq_inv h2
  obtain ⟨ft, hft, rfl⟩ := Matches_group_inv hg1
  obtain ⟨wrb, w4, frb, f4, rfl, rfl, hrb, h4⟩ := Matches_seq_inv h3
  obtain ⟨rfl, rfl⟩ := Matches_char_inv hrb
  obtain ⟨wsp, w5, fsp, f5, rfl, rfl, hsp, h5⟩ := Matches_seq_inv h4
  obtain ⟨-, rfl⟩ := Matches_star_inv hsp
  obtain ⟨u, w6, fg2, f6, rfl, rfl, hg2, h6⟩ := Matches_seq_inv h5
  obtain ⟨fu, hfu, rfl⟩ := Matches_group_inv hg2
  obtain ⟨wc, w7, fc, f7, rfl, rfl, hc, h7⟩ := Matches_seq_inv h6
  obtain ⟨rfl, rfl⟩ := Matches_char_inv hc
  obtain ⟨g3, hf7⟩ := tailT_inv h7
  have hftid := Matches_id_of_groupfree (by exact rfl) hft
  have hfuid := (rePlus_inv hfu).2.2
  refine ⟨t, wsp ++ (u ++ ':' :: w7), by simp, ⟨ft, hft⟩, ?_⟩
  intro caps
  simp [Function.comp, hf7, hftid, hfuid, getCap, setCap]

theorem whatsapp1RE_inv {w : List Char} {f : Caps → Caps}
    (h : Matches whatsapp1RE w f) :
    ∃ t, t ⊆ w ∧ (∃ ft, Matches timeRE t ft) ∧ ∀ caps, getCap 1 (f caps) = t := by
  obtain ⟨t, w2, fg1, f2, rfl, rfl, hg1, h2⟩ := Matches_seq_inv h
  obtain ⟨ft, hft, rfl⟩ := Matches_group_inv hg1
  obtain ⟨wsp, w3, fsp, f3, rfl, rfl, hsp, h3⟩ := Matches_seq_inv h2
  obtain ⟨-, rfl⟩ := Matches_star_inv hsp
  obtain ⟨wd, w4, fd, f4, rfl, rfl, hd, h4⟩ := Matches_seq_inv h3
  obtain ⟨rfl, rfl⟩ := Matches_char_inv hd
  obtain ⟨wsp2, w5, fsp2, f5, rfl, rfl, hsp2, h5⟩ := Matches_seq_inv h4
  obtain ⟨-, rfl⟩ := Matches_star_inv hsp2
  obtain ⟨u, w6, fg2, f6, rfl, rfl, hg2, h6⟩ := Matches_seq_inv h5
  obtain ⟨fu, hfu, rfl⟩ := Matches_group_inv hg2
  obtain ⟨wc, w7, fc, f7, rfl, rfl, hc, h7⟩ := Matches_seq_inv h6
  obtain ⟨rfl, rfl⟩ := Matches_char_inv hc
  obtain ⟨g3, hf7⟩ := tailT_inv h7
  have hftid := Matches_id_of_groupfree (by exact rfl) hft
  have hfuid := (rePlus_inv hfu).2.2
  refine ⟨t, fun x hx => by simp [hx], ⟨ft, hft⟩, ?_⟩
  intro caps
  simp [Function.comp, hf7, hftid, hfuid, getCap, setCap]

theorem whatsapp2RE_inv {w : List Char} {f : Caps → Caps}
    (h : Matches whatsapp2RE w f) :
    ∃ t, t ⊆ w ∧ (∃ ft, Matches timeRE t ft) ∧ ∀ caps, getCap 2 (f caps) = t := by
  obtain ⟨w1, w2, fg1, f2, rfl, rfl, hg1, h2⟩ := Matches_seq_inv h
  obtain ⟨fu, hfu, rfl⟩ := Matches_group_inv hg1
  obtain ⟨wcm, w3, fcm, f3, rfl, rfl, hcm, h3⟩ := Matches_seq_inv h2
  obtain ⟨rfl, rfl⟩ := Matches_char_inv hcm
  obtain ⟨wsp, w4, fsp, f4, rfl, rfl, hsp, h4⟩ := Matches_seq_inv h3
  obtain ⟨-, rfl⟩ := Matches_star_inv hsp
  obtain ⟨t, w5, fg2, f5, rfl, rfl, hg2, h5⟩ := Matches_seq_inv h4
  obtain ⟨ft, hft, rfl⟩ := Matches_group_inv hg2
  obtain ⟨wc, w6, fc, f6, rfl, rfl, hc, h6⟩ := Matches_seq_inv h5
  obtain ⟨rfl, rfl⟩ := Matches_char_inv hc
  obtain ⟨g3, hf6⟩ := tailT_inv h6
  have hftid := Matches_id_of_groupfree (by exact rfl) hft
  have hfuid := (rePlus_inv hfu).2.2
  refine ⟨t, fun x hx => by simp [hx], ⟨ft, hft⟩, ?_⟩
  intro caps
  simp [Function.comp, hf6, hftid, hfuid, getCap, setCap]

theorem generic1RE_inv {w : List Char} {f : Caps → Caps}
    (h : Matches generic1RE w f) :
    ∃ t, t ⊆ w ∧ (∃ ft, Matches timeRE t ft) ∧ ∀ caps, getCap 2 (f caps) = t := by
  obtain ⟨w1, w2, fg1, f2, rfl, rfl, hg1, h2⟩ := Matches_seq_inv h
  obtain ⟨fu, hfu, rfl⟩ := Matches_group_inv hg1
  obtain ⟨wsp, w3, fsp, f3, rfl, rfl, hsp, h3⟩ := Matches_seq_inv h2
  obtain ⟨-, rfl⟩ := Matches_star_inv hsp
  obtain ⟨wlp, w4, flp, f4, rfl, rfl, hlp, h4⟩ := Matches_seq_inv h3
  obtain ⟨rfl, rfl⟩ := Matches_char_inv hlp
  obtain ⟨t, w5, fg2, f5, rfl, rfl, hg2, h5⟩ := Matches_seq_inv h4
  obtain ⟨ft, hft, rfl⟩ := Matches_group_inv hg2
  obtain ⟨wrp, w6, frp, f6, rfl, rfl, hrp, h6⟩ := Matches_seq_inv h5
  obtain ⟨rfl, rfl⟩ := Matches_char_inv hrp
  obtain ⟨wc, w7, fc, f7, rfl, rfl, hc, h7⟩ := Matches_seq_inv h6
  obtain ⟨rfl, rfl⟩ := Matches_char_inv hc
  obtain ⟨g3, hf7⟩ := tailT_inv h7
  have hftid := Matches_id_of_groupfree (by exact rfl) hft
  have hfuid := (rePlus_inv hfu).2.2
  refine ⟨t, fun x hx => by simp [hx], ⟨ft, hft⟩, ?_⟩
  intro caps
  simp [Function.comp, hf7, hftid, hfuid, getCap, setCap]

/-! ### The shape invariant of parsed messages

Every message `parse` emits has a normalize-fixed, bracket- and
newline-free time, a user made of `.`-matchable characters, and a
nonempty, newline-free content ending in a non-whitespace character.
This is what the serialization round trip preserves. -/

def ContentGood (c : List Char) : Prop :=
  c ≠ [] ∧ (∀ x, c.getLast? = some x → jsWs x = false) ∧ ('\n' : Char) ∉ c

def GoodM (m : Message) : Prop :=
  timeGood m.time.data ∧ (∀ c ∈ m.user.data, dotC c = true) ∧
    ContentGood m.content.data

def LineOK (l : List Char) : Prop :=
  l ≠ [] ∧ ('\n' : Char) ∉ l ∧ ∀ x, l.getLast? = some x → jsWs x = false

theorem scan_time_good {bol : Bool} {re : RE} {l : List Char} {caps : Caps} {i : Nat}
    (hnl : ('\n' : Char) ∉ l) (hscan : scanM bol re none l = some caps)
    (hinv : ∀ w f, Matches re w f →
      ∃ t, t ⊆ w ∧ (∃ ft, Matches timeRE t ft) ∧ ∀ c0, getCap i (f c0) = t) :
    timeGood (normTimeL (jsTrim (getCap i caps))) := by
  obtain ⟨s', hsuf, hm⟩ := scanM_sound hscan
  obtain ⟨w, s1, f, hsplit, hM, hk⟩ := matchM_sound hm
  have hcaps : caps = f [] := by
    simp only [topK, Option.some_inj] at hk
    exact hk.symm
  obtain ⟨t, htw, ⟨ft, hft⟩, hget⟩ := hinv w f hM
  have htnl : ('\n' : Char) ∉ t := fun hmem =>
    hnl (hsuf.subset (hsplit ▸ List.mem_append_left s1 (htw hmem)))
  rw [hcaps, hget []]
  exact timeGood_capture hft htnl

theorem scan_content_good {bol : Bool} {re : RE} {l : List Char} {caps : Caps}
    (hends : EndsT re) (hlast : ∀ x, l.getLast? = some x → jsWs x = false)
    (hscan : scanM bol re none l = some caps) :
    ContentGood (jsTrim (getCap 3 caps)) := by
  obtain ⟨s', hsuf, hm⟩ := scanM_sound hscan
  obtain ⟨s1, c1, hsuf1, hT⟩ := endsT_decomp hends hm
  have hs1ne : s1 ≠ [] := by
    intro hnil
    rw [hnil, tailT_unfold] at hT
    rw [show starM jsWs [] grpK c1 = grpK [] c1 from rfl, grp3_nil] at hT
    exact Option.noConfusion hT
  have hs1last : ∀ x, s1.getLast? = some x → jsWs x = false := fun x hx =>
    hlast x (by rw [← suffix_getLast (hsuf1.trans hsuf) hs1ne]; exact hx)
  obtain ⟨h0, w0, hcaps, hh0, hdots⟩ := tailT_run hs1last hT
  have hget : getCap 3 caps = h0 :: w0 := by rw [hcaps]; rfl
  rw [hget]
  refine ⟨?_, ?_, ?_⟩
  · rw [jsTrim_cons_not_ws hh0]
    simp
  · exact fun x hx => jsTrim_getLast hx
  · intro hmem
    exact absurd (hdots '\n' (jsTrim_subset hmem)) (by decide)

theorem tryPatterns_good {l : List Char} {m : Message} (hok : LineOK l)
    (hp : tryPatterns patternList l = some m) : GoodM m := by
  obtain ⟨hne, hnl, hlast⟩ := hok
  have h1 : scanM true imessageRE none l = none := scanM_none_of_needs (by decide) hnl
  have h5 : scanM true slackRE none l = none := scanM_none_of_needs (by decide) hnl
  have h7 : scanM false telegramRE none l = none := scanM_none_of_needs (by decide) hnl
  have h8 : scanM true smsRE none l = none := scanM_none_of_needs (by decide) hnl
  simp only [patternList, tryPatterns, h1, h5, h7, h8] at hp
  cases h2 : scanM false discordRE none l with
  | some caps =>
    rw [h2] at hp
    cases hp
    refine ⟨?_, ?_, ?_⟩
    · exact scan_time_good hnl h2 (fun w f hM => by
        obtain ⟨t, rest, hw, hft, hget⟩ := discordRE_inv hM
        exact ⟨t, fun x hx => by rw [hw]; simp [hx], hft, hget⟩)
    · exact cleanUsernameL_dot
    · exact scan_content_good endsT_discord hlast h2
  | none =>
  rw [h2] at hp
  cases h3 : scanM false whatsapp1RE none l with
  | some caps =>
    rw [h3] at hp
    cases hp
    refine ⟨?_, ?_, ?_⟩
    · exact scan_time_good hnl h3 (fun w f hM => whatsapp1RE_inv hM)
    · exact cleanUsernameL_dot
    · exact scan_content_good endsT_whatsapp1 hlast h3
  | none =>
  rw [h3] at hp
  cases h4 : scanM false whatsapp2RE none l with
  | some caps =>
    rw [h4] at hp
    cases hp
    refine ⟨?_, ?_, ?_⟩
    · exact scan_time_good hnl h4 (fun w f hM => whatsapp2RE_inv hM)
    · exact cleanUsernameL_dot
    · exact scan_content_good endsT_whatsapp2 hlast h4
  | none =>
  rw [h4] at hp
  cases h6 : scanM false generic1RE none l with
  | some caps =>
    rw [h6] at hp
    cases hp
    refine ⟨?_, ?_, ?_⟩
    · exact scan_time_good hnl h6 (fun w f hM => generic1RE_inv hM)
    · exact cleanUsernameL_dot
    · exact scan_content_good endsT_generic1 hlast h6
  | none =>
  rw [h6] at hp
  have h9 : scanM false standardRE none l = none := h2
  rw [h9] at hp
  exact absurd hp (by simp)

theorem fold_good {c : Message} {l : List Char} (hc : GoodM c) (hok : LineOK l) :
    GoodM { c with content := String.mk (c.content.data ++ ' ' :: l) } := by
  obtain ⟨ht, hu, hcne, hclast, hcnl⟩ := hc
  obtain ⟨hlne, hlnl, hllast⟩ := hok
  refine ⟨ht, hu, ?_, ?_, ?_⟩
  · simp
  · intro x hx
    rw [show ({ c with content := String.mk (c.content.data ++ ' ' :: l)} :
        Message).content.data = c.content.data ++ ' ' :: l from rfl] at hx
    rw [List.getLast?_append_of_ne_nil _ (by simp)] at hx
    obtain ⟨d, l', rfl⟩ := List.exists_cons_of_ne_nil hlne
    rw [List.getLast?_cons_cons] at hx
    exact hllast x hx
  · intro hmem
    rw [show ({ c with content := String.mk (c.content.data ++ ' ' :: l)} :
        Message).content.data = c.content.data ++ ' ' :: l from rfl] at hmem
    rcases List.mem_append.mp hmem with h1 | h1
    · exact hcnl h1
    · rcases List.mem_cons.mp h1 with h2 | h2
      · exact absurd h2 (by decide)
      · exact hlnl h2

theorem accum_good : ∀ {lines : List (List Char)} {cur : Option Message},
    (∀ l ∈ lines, LineOK l) → (∀ c, cur = some c → GoodM c) →
    ∀ m ∈ accum lines cur, GoodM m := by
  intro lines
  induction lines with
  | nil =>
    intro cur hls hcur m hm
    match cur with
    | none => simp [accum] at hm
    | some c =>
      simp only [accum, List.mem_singleton] at hm
      subst hm
      exact hcur m rfl
  | cons l ls ih =>
    intro cur hls hcur m hm
    have hlok : LineOK l := hls l (List.mem_cons_self l ls)
    have hls' : ∀ x ∈ ls, LineOK x := fun x hx => hls x (List.mem_cons_of_mem l hx)
    simp only [accum] at hm
    cases hp : tryPatterns patternList l with
    | some m₀ =>
      rw [hp] at hm
      have hm₀ : GoodM m₀ := tryPatterns_good hlok hp
      match cur with
      | none =>
        exact ih hls' (fun c hc => by cases hc; exact hm₀) m hm
      | some c =>
        rcases List.mem_cons.mp hm with rfl | hm2
        · exact hcur m rfl
        · exact ih hls' (fun c' hc' => by cases hc'; exact hm₀) m hm2
    | none =>
      rw [hp] at hm
      match cur with
      | none => exact ih hls' (fun c hc => by cases hc) m hm
      | some c =>
        exact ih hls' (fun c' hc' => by
          cases hc'
          exact fold_good (hcur c rfl) hlok) m hm

theorem chatLines_ok {t : List Char} : ∀ l ∈ chatLines t, LineOK l := by
  intro l hl
  obtain ⟨hnl, hne, p, hp, rfl⟩ := chatLines_mem hl
  exact ⟨hne, hnl, fun x hx => jsTrim_getLast hx⟩

theorem parse_good (text : String) : ∀ m ∈ parse text, GoodM m := by
  intro m hm
  unfold parse at hm
  by_cases ht : jsTrim text.data = []
  · rw [if_pos ht] at hm
    cases hm
  · rw [if_neg ht] at hm
    exact accum_good chatLines_ok (fun c hc => by cases hc) m hm

/-! ### Reparsing a serialized message

A serialized line `[time] user: content` always matches the discord
pattern at position 0, and the first-`]` argument pins the time capture
to exactly the serialized time field. -/

theorem timeGood_matches {t : List Char} (h : timeGood t) :
    ∃ ft, Matches timeRE t ft := by
  obtain ⟨⟨D, S, M, rfl, hD, hDall, hSall, hM⟩, -, -, -, -⟩ := h
  rw [List.append_assoc]
  exact timeRE_construct hD hDall hSall hM

theorem rePlus_construct (p : Char → Bool) {w : List Char} (hne : w ≠ [])
    (hall : ∀ c ∈ w, p c = true) : ∃ f, Matches (rePlus p) w f := by
  obtain ⟨c, w', rfl⟩ := List.exists_cons_of_ne_nil hne
  exact ⟨id ∘ id, Matches.seq (Matches.cls (hall c (List.mem_cons_self c w')))
    (Matches.star fun x hx => hall x (List.mem_cons_of_mem c hx))⟩

theorem tailT_construct {r0 : Char} (h : dotC r0 = true) :
    ∃ f, Matches tailT [r0] f := by
  obtain ⟨fp, hp⟩ := rePlus_construct dotC (show [r0] ≠ [] by simp)
    (by
      intro x hx
      simp only [List.mem_singleton] at hx
      subst hx
      exact h)
  exact ⟨_, Matches.seq (@Matches.star jsWs [] (by simp)) (Matches.group hp)⟩

theorem matchM_isSome_of_matches {r : RE} {w : List Char} {f : Caps → Caps}
    (s1 : List Char) (hm : Matches r w f) :
    ∃ v, matchM r (w ++ s1) topK [] = some v := by
  cases hres : matchM r (w ++ s1) topK [] with
  | some v => exact ⟨v, rfl⟩
  | none => exact absurd (matchM_none hm hres) (by simp [topK])

theorem serialize_matches {t u c : List Char} (htg : timeGood t)
    (hu : ∀ x ∈ u, dotC x = true) :
    ∃ v, matchM discordRE ('[' :: (t ++ ']' :: ' ' :: (u ++ ':' :: ' ' :: c)))
      topK [] = some v := by
  obtain ⟨ft, hft⟩ := timeGood_matches htg
  by_cases hcol : (':' : Char) ∈ u
  · obtain ⟨u1, u2, rfl, hu1⟩ := first_colon_split hcol
    obtain ⟨f2, hg2⟩ := rePlus_construct notColon (show ' ' :: u1 ≠ [] by simp)
      (by
        intro x hx
        rcases List.mem_cons.mp hx with rfl | hx
        · decide
        · have hne : x ≠ ':' := fun hc => hu1 (hc ▸ hx)
          simp [notColon, hne])
    cases u2 with
    | nil =>
      obtain ⟨f7, h7⟩ := tailT_construct (show dotC ':' = true by decide)
      have hder := Matches.seq (Matches.char '[') (Matches.seq (@Matches.group 1
        timeRE t ft hft) (Matches.seq (Matches.char ']') (Matches.seq
          (@Matches.star jsWs [] (by simp)) (Matches.seq (@Matches.group 2
            (rePlus notColon) (' ' :: u1) f2 hg2)
            (Matches.seq (Matches.char ':') h7)))))
      obtain ⟨v, hv⟩ := matchM_isSome_of_matches (' ' :: c) hder
      refine ⟨v, ?_⟩
      rw [show ('[' :: (t ++ ']' :: ' ' :: ((u1 ++ ':' :: []) ++ ':' :: ' ' :: c))
        : List Char) = (['['] ++ (t ++ ([']'] ++ ([] ++ ((' ' :: u1) ++
          ([':'] ++ [':'])))))) ++ (' ' :: c) by simp]
      exact hv
    | cons d u2' =>
      obtain ⟨f7, h7⟩ := tailT_construct (hu d (by simp))
      have hder := Matches.seq (Matches.char '[') (Matches.seq (@Matches.group 1
        timeRE t ft hft) (Matches.seq (Matches.char ']') (Matches.seq
          (@Matches.star jsWs [] (by simp)) (Matches.seq (@Matches.group 2
            (rePlus notColon) (' ' :: u1) f2 hg2)
            (Matches.seq (Matches.char ':') h7)))))
      obtain ⟨v, hv⟩ := matchM_isSome_of_matches (u2' ++ ':' :: ' ' :: c) hder
      refine ⟨v, ?_⟩
      rw [show ('[' :: (t ++ ']' :: ' ' :: ((u1 ++ ':' :: d :: u2') ++ ':' :: ' '
        :: c)) : List Char) = (['['] ++ (t ++ ([']'] ++ ([] ++ ((' ' :: u1) ++
          ([':'] ++ [d])))))) ++ (u2' ++ ':' :: ' ' :: c) by simp]
      exact hv
  · obtain ⟨f2, hg2⟩ := rePlus_construct notColon (show ' ' :: u ≠ [] by simp)
      (by
        intro x hx
        rcases List.mem_cons.mp hx with rfl | hx
        · decide
        · have hne : x ≠ ':' := fun hc => hcol (hc ▸ hx)
          simp [notColon, hne])
    obtain ⟨f7, h7⟩ := tailT_construct (show dotC ' ' = true by decide)
    have hder := Matches.seq (Matches.char '[') (Matches.seq (@Matches.group 1
      timeRE t ft hft) (Matches.seq (Matches.char ']') (Matches.seq
        (@Matches.star jsWs [] (by simp)) (Matches.seq (@Matches.group 2
          (rePlus notColon) (' ' :: u) f2 hg2)
          (Matches.seq (Matches.char ':') h7)))))
    obtain ⟨v, hv⟩ := matchM_isSome_of_matches c hder
    refine ⟨v, ?_⟩
    rw [show ('[' :: (t ++ ']' :: ' ' :: (u ++ ':' :: ' ' :: c)) : List Char) =
      (['['] ++ (t ++ ([']'] ++ ([] ++ ((' ' :: u) ++ ([':'] ++ [' '])))))) ++ c
      by simp]
    exact hv

theorem serialize_no_nl {m : Message} (hm : GoodM m) :
    ('\n' : Char) ∉ serializeMsg m := by
  obtain ⟨htg, hu, -, -, hcnl⟩ := hm
  intro hmem
  simp only [serializeMsg] at hmem
  rcases List.mem_cons.mp hmem with h | h
  · exact absurd h (by decide)
  rcases List.mem_append.mp h with h | h
  · exact htg.2.2.2.2 h
  rcases List.mem_cons.mp h with h | h
  · exact absurd h (by decide)
  rcases List.mem_cons.mp h with h | h
  · exact absurd h (by decide)
  rcases List.mem_append.mp h with h | h
  · exact absurd (hu _ h) (by decide)
  rcases List.mem_cons.mp h with h | h
  · exact absurd h (by decide)
  rcases List.mem_cons.mp h with h | h
  · exact absurd h (by decide)
  exact hcnl h

theorem serialize_trim {m : Message} (hm : GoodM m) :
    jsTrim (serializeMsg m) = serializeMsg m := by
  obtain ⟨-, -, hcne, hclast, -⟩ := hm
  obtain ⟨x, hx⟩ : ∃ x, m.content.data.getLast? = some x :=
    ⟨m.content.data.getLast hcne, List.getLast?_eq_getLast _ hcne⟩
  have hxw : jsWs x = false := hclast x hx
  have hC : m.content.data = m.content.data.dropLast ++ [x] := by
    have h1 := List.dropLast_append_getLast hcne
    rw [List.getLast?_eq_getLast _ hcne] at hx
    injection hx with hx'
    rw [hx'] at h1
    exact h1.symm
  simp only [serializeMsg]
  rw [jsTrim_cons_not_ws (by decide)]
  congr 1
  rw [hC, show m.time.data ++ ']' :: ' ' :: (m.user.data ++ ':' :: ' ' ::
      (List.dropLast m.content.data ++ [x])) =
      (m.time.data ++ ']' :: ' ' :: (m.user.data ++ ':' :: ' ' ::
        List.dropLast m.content.data)) ++ [x] by simp]
  rw [trimRight_last_not_ws hxw]

theorem serialize_reparse {m : Message} (hm : GoodM m) :
    ∃ m', tryPatterns patternList (serializeMsg m) = some m' ∧ m'.time = m.time := by
  have hlnl := serialize_no_nl hm
  obtain ⟨htg, hu, -, -, -⟩ := hm
  obtain ⟨v, hv⟩ := serialize_matches htg hu
  have hv' : matchM discordRE (serializeMsg m) topK [] = some v := hv
  have hscan : scanM false discordRE none (serializeMsg m) = some v :=
    scanM_of_head rfl hv'
  have h1 : scanM true imessageRE none (serializeMsg m) = none :=
    scanM_none_of_needs (by decide) hlnl
  refine ⟨mkMessage "discord" v, ?_, ?_⟩
  · simp only [patternList, tryPatterns, h1, hscan]
  · obtain ⟨w, s1, f, hsplit, hM, hk⟩ := matchM_sound hv'
    have hv2 : v = f [] := by
      simp only [topK, Option.some_inj] at hk
      exact hk.symm
    obtain ⟨t', rest', hw, ⟨ft', hft'⟩, hget⟩ := discordRE_inv hM
    have h0 : serializeMsg m = '[' :: (t' ++ ']' :: (rest' ++ s1)) := by
      rw [hsplit, hw]
      simp
    have h1' : ('[' :: (m.time.data ++ ']' :: ' ' :: (m.user.data ++ ':' :: ' ' ::
        m.content.data)) : List Char) = '[' :: (t' ++ ']' :: (rest' ++ s1)) := h0
    injection h1' with _ h2
    have ht' : m.time.data = t' :=
      (first_sep h2 htg.2.2.2.1 (timeRE_no_rbracket hft')).1
    show String.mk (normTimeL (jsTrim (getCap 1 v))) = m.time
    rw [hv2, hget [], ← ht', htg.2.1, htg.2.2.1]

/-! ### Splitting a joined transcript back into its lines -/

theorem splitNl_no_nl_eq : ∀ {l : List Char}, ('\n' : Char) ∉ l →
    splitNl l = [l] := by
  intro l
  induction l with
  | nil => intro _; rfl
  | cons c rest ih =>
    intro h
    have hc : c ≠ '\n' := fun hc => h (by simp [hc])
    have hr : ('\n' : Char) ∉ rest := fun hm => h (List.mem_cons_of_mem c hm)
    simp only [splitNl, if_neg hc, ih hr]

theorem splitNl_append_nl : ∀ {l : List Char}, ('\n' : Char) ∉ l →
    ∀ rest, splitNl (l ++ '\n' :: rest) = l :: splitNl rest := by
  intro l
  induction l with
  | nil =>
    intro _ rest
    simp [splitNl]
  | cons c l' ih =>
    intro hl rest
    have hc : c ≠ '\n' := fun hc => hl (by simp [hc])
    have hl' : ('\n' : Char) ∉ l' := fun hm => hl (List.mem_cons_of_mem c hm)
    rw [List.cons_append]
    simp only [splitNl, if_neg hc, ih hl' rest]

theorem splitNl_joinNl : ∀ {ls : List (List Char)}, ls ≠ [] →
    (∀ l ∈ ls, ('\n' : Char) ∉ l) → splitNl (joinNl ls) = ls := by
  intro ls
  induction ls with
  | nil => intro h _; exact absurd rfl h
  | cons l ls' ih =>
    intro _ hnl
    cases ls' with
    | nil =>
      show splitNl (joinNl [l]) = [l]
      rw [show joinNl [l] = l from rfl]
      exact splitNl_no_nl_eq (hnl l (List.mem_cons_self l []))
    | cons l2 ls'' =>
      show splitNl (l ++ '\n' :: joinNl (l2 :: ls'')) = l :: (l2 :: ls'')
      rw [splitNl_append_nl (hnl l (List.mem_cons_self _ _)) _,
        ih (by simp) (fun x hx => hnl x (List.mem_cons_of_mem l hx))]

theorem chatLines_serialized {msgs : List Message} (hne : msgs ≠ [])
    (hg : ∀ m ∈ msgs, GoodM m) :
    chatLines (toStandardFormat msgs).data = msgs.map serializeMsg := by
  have hdata : (toStandardFormat msgs).data = joinNl (msgs.map serializeMsg) := rfl
  rw [chatLines, hdata, splitNl_joinNl (by simpa using hne)
    (by
      intro l hl
      obtain ⟨m, hm, rfl⟩ := List.mem_map.mp hl
      exact serialize_no_nl (hg m hm))]
  rw [List.map_map]
  rw [show msgs.map (jsTrim ∘ serializeMsg) = msgs.map serializeMsg from
    List.map_congr_left fun m hm => serialize_trim (hg m hm)]
  rw [List.filter_eq_self.mpr]
  intro a ha
  obtain ⟨m, hm, rfl⟩ := List.mem_map.mp ha
  simp [serializeMsg]

theorem accum_times : ∀ (msgs : List Message),
    (∀ m ∈ msgs, ∃ m', tryPatterns patternList (serializeMsg m) = some m' ∧
      m'.time = m.time) →
    ∀ cur : Option Message,
    (accum (msgs.map serializeMsg) cur).map Message.time =
      (cur.map Message.time).toList ++ msgs.map Message.time := by
  intro msgs
  induction msgs with
  | nil =>
    intro _ cur
    match cur with
    | none => rfl
    | some c => rfl
  | cons m rest ih =>
    intro h cur
    obtain ⟨m', hm', htime⟩ := h m (List.mem_cons_self m rest)
    have hrest := fun x hx => h x (List.mem_cons_of_mem m hx)
    show (accum (serializeMsg m :: rest.map serializeMsg) cur).map Message.time = _
    simp only [accum, hm']
    match cur with
    | none =>
      rw [ih hrest (some m')]
      simp [htime]
    | some c =>
      simp only [List.map_cons]
      rw [ih hrest (some m')]
      simp [htime]

theorem reparse_times {msgs : List Message} (hg : ∀ m ∈ msgs, GoodM m) :
    (parse (toStandardFormat msgs)).map Message.time = msgs.map Message.time := by
  cases msgs with
  | nil => decide
  | cons m0 rest =>
    have hne : (m0 :: rest : List Message) ≠ [] := by simp
    have hguard : jsTrim (toStandardFormat (m0 :: rest)).data ≠ [] := by
      have hdata : (toStandardFormat (m0 :: rest)).data
          = joinNl ((m0 :: rest).map serializeMsg) := rfl
      rw [hdata]
      have hex : ∃ r, joinNl ((m0 :: rest).map serializeMsg) = '[' :: r := by
        cases rest with
        | nil => exact ⟨_, rfl⟩
        | cons m1 r2 => exact ⟨_, rfl⟩
      obtain ⟨r, hr⟩ := hex
      rw [hr, jsTrim_cons_not_ws (by decide)]
      simp
    unfold parse
    rw [if_neg hguard, chatLines_serialized hne hg,
      accum_times _ (fun m hm => serialize_reparse (hg m hm)) none]
    rfl

/-- C3: counterexample to full round-trip stability of `user`/`content`.
The line `"a:b, 10:30: hi"` parses via the whatsapp2 rule to a message
with user `"a:b"`; its canonical form `"[10:30] a:b: hi"` reparses via
the discord rule, whose `[^:]+` user group stops at the first colon, so
the round trip returns user `"a"` and content `"b: hi"`. -/
theorem c3_counterexample :
    parse "a:b, 10:30: hi" =
      [{ time := "10:30", user := "a:b", content := "hi",
         format := "whatsapp2" }] ∧
    parse (toStandardFormat (parse "a:b, 10:30: hi")) =
      [{ time := "10:30", user := "a", content := "b: hi",
         format := "discord" }] ∧
    (parse (toStandardFormat (parse "a:b, 10:30: hi"))).map Message.user ≠
      (parse "a:b, 10:30: hi").map Message.user := by
  refine ⟨by decide, by decide, by decide⟩

/-- C3 (amended): the round trip through `toStandardFormat` preserves
the number of messages and every message's `time` field, for any list
produced by `parse`; the `user`/`content` fields need not survive
(see the counterexample). -/
theorem c3_amended (text : String) :
    (parse (toStandardFormat (parse text))).map Message.time
      = (parse text).map Message.time ∧
    (parse (toStandardFormat (parse text))).length = (parse text).length := by
  have hmap := reparse_times (parse_good text)
  exact ⟨hmap, by simpa using congrArg List.length hmap⟩

end ChatParser
